import Mathlib

/-!
Verification of the maze generator/solver (`Maze.js`).

The program builds a rectangular grid of cells separated by doors (walls),
opens a subset of doors with one of three randomized algorithms
(recursive backtracker, Prim, Kruskal with union-find), and solves the
maze with a randomized depth-first search.

Shallow embedding conventions:
* a cell is its coordinate pair `(row, col)`; within one grid, JS object
  identity of cells coincides with coordinate equality;
* a door is identified by its ordered endpoint pair (the `Door`
  constructor normalizes `cell1`/`cell2` to row-major order), and the
  mutable `closed` flag lives in a map `DoorId → Bool` carried by the
  maze state;
* JS `Object.values`/`Object.entries` enumerate string keys in insertion
  order; since each per-cell direction key is written exactly once during
  construction, a cell's door map is modelled as the construction-order
  registration sequence filtered to that cell;
* every call to `Math.random()` is modelled as consuming one element of
  an explicit list of natural numbers; a draw `Math.floor(Math.random()*n)`
  yields `head % n`, so quantifying over the list quantifies over all
  possible sequences of in-range random choices;
* unbounded `while` loops run on explicit fuel; termination theorems show
  the stated fuel is never exhausted.
-/

namespace MazeV

abbrev Cell := Nat × Nat

inductive Dir
  | up
  | down
  | left
  | right
deriving DecidableEq, Repr

/-- A door (wall) between two adjacent cells, endpoints normalized as in the
`Door` constructor: `cell1` precedes `cell2` in row-major order. -/
structure DoorId where
  c1 : Cell
  c2 : Cell
deriving DecidableEq, Repr

/-- `new Door(c1, c2)`: orders the two endpoints row-major. -/
def mkDoor (a b : Cell) : DoorId :=
  if a.1 < b.1 ∨ (a.1 = b.1 ∧ a.2 < b.2) then ⟨a, b⟩ else ⟨b, a⟩

/-- `Door.direction`: a vertical segment when the two cells share a row. -/
def doorDir (d : DoorId) : Char :=
  if d.c1.1 = d.c2.1 then '|' else '-'

/-- All cells of a `rows × cols` grid in row-major order (the order in which
the constructor creates them and the iterator yields them). -/
def cellSeq (rows cols : Nat) : List Cell :=
  (List.range rows).flatMap (fun x => (List.range cols).map (fun y => (x, y)))

/-- Doors appended to the grid's door array while the constructor processes
cell `(x, y)`: the NORTH door when `x ≥ 1`, then the WEST door when `y ≥ 1`. -/
def stepDoors (c : Cell) : List DoorId :=
  (if 1 ≤ c.1 then [mkDoor c (c.1 - 1, c.2)] else []) ++
    (if 1 ≤ c.2 then [mkDoor c (c.1, c.2 - 1)] else [])

/-- The grid's door array in construction order. -/
def gridDoors (rows cols : Nat) : List DoorId :=
  (cellSeq rows cols).flatMap stepDoors

/-- Direction-map writes (`cellX.doors[dir] = door`) performed while the
constructor processes cell `(x, y)`, in program order. -/
def stepRegs (c : Cell) : List (Cell × Dir × DoorId) :=
  (if 1 ≤ c.1 then
      [(c, Dir.up, mkDoor c (c.1 - 1, c.2)),
        ((c.1 - 1, c.2), Dir.down, mkDoor c (c.1 - 1, c.2))]
    else []) ++
    (if 1 ≤ c.2 then
      [(c, Dir.left, mkDoor c (c.1, c.2 - 1)),
        ((c.1, c.2 - 1), Dir.right, mkDoor c (c.1, c.2 - 1))]
    else [])

/-- All direction-map writes of the whole construction, in program order. -/
def gridRegs (rows cols : Nat) : List (Cell × Dir × DoorId) :=
  (cellSeq rows cols).flatMap stepRegs

/-- A cell's door map (`cell.doors`) as its insertion-ordered entry list:
each direction key is written exactly once, so JS `Object.entries` order is
the construction-order registration sequence filtered to this cell. -/
def doorsOf (rows cols : Nat) (c : Cell) : List (Dir × DoorId) :=
  (gridRegs rows cols).filterMap (fun e => if e.1 = c then some e.2 else none)

/-- Maze state: the immutable grid shape, the door array (mutated in place
only by Kruskal's shuffle), and the doors' `closed` flags. -/
structure Maze where
  rows : Nat
  cols : Nat
  doors : List DoorId
  closed : DoorId → Bool

/-- The grid exactly as the constructor builds it, before generation:
all doors closed. -/
def initMaze (rows cols : Nat) : Maze :=
  ⟨rows, cols, gridDoors rows cols, fun _ => true⟩

/-- `door.cell1 === cell ? door.cell2 : door.cell1`. -/
def doorOther (d : DoorId) (c : Cell) : Cell :=
  if d.c1 = c then d.c2 else d.c1

/-- `Cell.canVisit`: the cells behind this cell's open doors, in door-map
insertion order. -/
def canVisit (m : Maze) (c : Cell) : List Cell :=
  (doorsOf m.rows m.cols c).filterMap
    (fun e => if m.closed e.2 then none else some (doorOther e.2 c))

/-- `_neighbors`: the cells behind all of this cell's doors, open or not. -/
def allNeighbors (rows cols : Nat) (c : Cell) : List Cell :=
  (doorsOf rows cols c).map (fun e => doorOther e.2 c)

/-- One `Math.floor(Math.random() * n)` draw: consume the head of the
choice list and reduce it into range. -/
def randBelow (rng : List Nat) (n : Nat) : Nat × List Nat :=
  (if n = 0 then 0 else rng.headD 0 % n, rng.tail)

/-- JS `Set.prototype.add` on an insertion-ordered set. -/
def setAdd (v : List Cell) (c : Cell) : List Cell :=
  if v.contains c then v else v ++ [c]

/-- Membership in the row-major cell list is exactly being in range. -/
theorem mem_cellSeq {rows cols : Nat} {c : Cell} :
    c ∈ cellSeq rows cols ↔ c.1 < rows ∧ c.2 < cols := by
  unfold cellSeq
  simp only [List.mem_flatMap, List.mem_map, List.mem_range]
  constructor
  · rintro ⟨x, hx, y, hy, rfl⟩
    exact ⟨hx, hy⟩
  · intro ⟨h1, h2⟩
    exact ⟨c.1, h1, c.2, h2, rfl⟩

theorem cellSeq_length (rows cols : Nat) :
    (cellSeq rows cols).length = rows * cols := by
  unfold cellSeq
  induction rows with
  | zero => simp
  | succ r ih =>
      rw [List.range_succ]
      simp only [List.flatMap_append, List.length_append, ih]
      simp [Nat.succ_mul, Nat.mul_comm]

theorem cellSeq_nodup (rows cols : Nat) : (cellSeq rows cols).Nodup := by
  unfold cellSeq
  refine List.nodup_flatMap.2 ⟨?_, ?_⟩
  · intro x _
    exact (List.nodup_range cols).map (fun a b h => by
      simpa using congrArg Prod.snd h)
  · refine (List.nodup_range rows).imp ?_
    intro x y hxy c hc hc2
    simp only [Function.onFun, List.mem_map, List.mem_range] at hc hc2
    obtain ⟨a, _, rfl⟩ := hc
    obtain ⟨b, _, hb⟩ := hc2
    exact hxy (congrArg Prod.fst hb).symm

theorem mkDoor_up {x y : Nat} (h : 1 ≤ x) :
    mkDoor (x, y) (x - 1, y) = ⟨(x - 1, y), (x, y)⟩ := by
  unfold mkDoor
  rw [if_neg]
  simp only []
  omega

theorem mkDoor_left {x y : Nat} (h : 1 ≤ y) :
    mkDoor (x, y) (x, y - 1) = ⟨(x, y - 1), (x, y)⟩ := by
  unfold mkDoor
  rw [if_neg]
  simp only []
  omega

theorem mem_stepDoors {c : Cell} {d : DoorId} :
    d ∈ stepDoors c ↔
      (1 ≤ c.1 ∧ d = ⟨(c.1 - 1, c.2), c⟩) ∨ (1 ≤ c.2 ∧ d = ⟨(c.1, c.2 - 1), c⟩) := by
  obtain ⟨x, y⟩ := c
  unfold stepDoors
  rcases Nat.eq_zero_or_pos x with hx | hx <;> rcases Nat.eq_zero_or_pos y with hy | hy <;>
    subst_vars <;>
    simp_all [mkDoor_up, mkDoor_left, Nat.not_succ_le_zero]

theorem mem_gridDoors {rows cols : Nat} {d : DoorId} :
    d ∈ gridDoors rows cols ↔
      (∃ x y, x + 1 < rows ∧ y < cols ∧ d = ⟨(x, y), (x + 1, y)⟩) ∨
        (∃ x y, x < rows ∧ y + 1 < cols ∧ d = ⟨(x, y), (x, y + 1)⟩) := by
  unfold gridDoors
  rw [List.mem_flatMap]
  constructor
  · rintro ⟨c, hc, hd⟩
    rw [mem_cellSeq] at hc
    rcases mem_stepDoors.1 hd with ⟨h1, rfl⟩ | ⟨h1, rfl⟩
    · left
      exact ⟨c.1 - 1, c.2, by omega, hc.2, by
        obtain ⟨x, y⟩ := c
        simp only []
        congr 2 <;> omega⟩
    · right
      exact ⟨c.1, c.2 - 1, hc.1, by omega, by
        obtain ⟨x, y⟩ := c
        simp only []
        congr 2 <;> omega⟩
  · rintro (⟨x, y, h1, h2, rfl⟩ | ⟨x, y, h1, h2, rfl⟩)
    · refine ⟨(x + 1, y), mem_cellSeq.2 ⟨h1, h2⟩, mem_stepDoors.2 ?_⟩
      left
      exact ⟨by omega, by simp⟩
    · refine ⟨(x, y + 1), mem_cellSeq.2 ⟨h1, h2⟩, mem_stepDoors.2 ?_⟩
      right
      exact ⟨by omega, by simp⟩

theorem mem_doorsOf {rows cols : Nat} {c : Cell} {p : Dir × DoorId} :
    p ∈ doorsOf rows cols c ↔ (c, p) ∈ gridRegs rows cols := by
  unfold doorsOf
  rw [List.mem_filterMap]
  constructor
  · rintro ⟨e, he, hf⟩
    by_cases h : e.1 = c
    · rw [if_pos h] at hf
      obtain ⟨e1, e2⟩ := e
      cases hf
      cases h
      exact he
    · rw [if_neg h] at hf
      cases hf
  · intro h
    exact ⟨(c, p), h, by simp⟩

theorem mem_stepRegs {c' c : Cell} {q : Dir × DoorId} :
    (c, q) ∈ stepRegs c' ↔
      (1 ≤ c'.1 ∧
          ((c = c' ∧ q = (Dir.up, mkDoor c' (c'.1 - 1, c'.2))) ∨
            (c = (c'.1 - 1, c'.2) ∧ q = (Dir.down, mkDoor c' (c'.1 - 1, c'.2))))) ∨
        (1 ≤ c'.2 ∧
          ((c = c' ∧ q = (Dir.left, mkDoor c' (c'.1, c'.2 - 1))) ∨
            (c = (c'.1, c'.2 - 1) ∧ q = (Dir.right, mkDoor c' (c'.1, c'.2 - 1))))) := by
  unfold stepRegs
  rcases Nat.eq_zero_or_pos c'.1 with hx | hx <;> rcases Nat.eq_zero_or_pos c'.2 with hy | hy <;>
    simp_all [Nat.not_succ_le_zero, Prod.ext_iff] <;> tauto

/-- Every direction-map write registers a door of the grid for one of its
own two endpoints, and all cells involved are grid cells. -/
theorem gridRegs_sound {rows cols : Nat} {c : Cell} {dir : Dir} {d : DoorId}
    (h : (c, dir, d) ∈ gridRegs rows cols) :
    c ∈ cellSeq rows cols ∧ d.c1 ∈ cellSeq rows cols ∧ d.c2 ∈ cellSeq rows cols ∧
      (c = d.c1 ∨ c = d.c2) ∧ d ∈ gridDoors rows cols := by
  unfold gridRegs at h
  rw [List.mem_flatMap] at h
  obtain ⟨c', hc', hm⟩ := h
  have hc'2 := mem_cellSeq.1 hc'
  have hdm : d ∈ stepDoors c' := by
    rw [mem_stepDoors]
    rcases mem_stepRegs.1 hm with ⟨h1, hq⟩ | ⟨h1, hq⟩
    · left
      refine ⟨h1, ?_⟩
      rcases hq with ⟨_, hq⟩ | ⟨_, hq⟩ <;>
        simpa [mkDoor_up h1] using congrArg Prod.snd hq
    · right
      refine ⟨h1, ?_⟩
      rcases hq with ⟨_, hq⟩ | ⟨_, hq⟩ <;>
        simpa [mkDoor_left h1] using congrArg Prod.snd hq
  have hdg : d ∈ gridDoors rows cols := List.mem_flatMap.2 ⟨c', hc', hdm⟩
  rcases mem_stepRegs.1 hm with ⟨h1, hq⟩ | ⟨h1, hq⟩
  · have hd : d = ⟨(c'.1 - 1, c'.2), c'⟩ := by
      rcases hq with ⟨_, hq⟩ | ⟨_, hq⟩ <;>
        simpa [mkDoor_up h1] using congrArg Prod.snd hq
    subst hd
    refine ⟨?_, ?_, ?_, ?_, hdg⟩
    · rcases hq with ⟨rfl, _⟩ | ⟨rfl, _⟩
      · exact hc'
      · exact mem_cellSeq.2 ⟨by omega, hc'2.2⟩
    · show (c'.1 - 1, c'.2) ∈ cellSeq rows cols
      exact mem_cellSeq.2 ⟨by omega, hc'2.2⟩
    · show c' ∈ cellSeq rows cols
      exact hc'
    · rcases hq with ⟨rfl, _⟩ | ⟨rfl, _⟩
      · right
        rfl
      · left
        rfl
  · have hd : d = ⟨(c'.1, c'.2 - 1), c'⟩ := by
      rcases hq with ⟨_, hq⟩ | ⟨_, hq⟩ <;>
        simpa [mkDoor_left h1] using congrArg Prod.snd hq
    subst hd
    refine ⟨?_, ?_, ?_, ?_, hdg⟩
    · rcases hq with ⟨rfl, _⟩ | ⟨rfl, _⟩
      · exact hc'
      · exact mem_cellSeq.2 ⟨hc'2.1, by omega⟩
    · show (c'.1, c'.2 - 1) ∈ cellSeq rows cols
      exact mem_cellSeq.2 ⟨hc'2.1, by omega⟩
    · show c' ∈ cellSeq rows cols
      exact hc'
    · rcases hq with ⟨rfl, _⟩ | ⟨rfl, _⟩
      · right
        rfl
      · left
        rfl

theorem doorOther_mem {d : DoorId} {c : Cell} :
    doorOther d c = d.c1 ∨ doorOther d c = d.c2 := by
  unfold doorOther
  split <;> simp

/-- Cells reachable through open doors are grid cells. -/
theorem canVisit_subset {m : Maze} {c n : Cell} (h : n ∈ canVisit m c) :
    n ∈ cellSeq m.rows m.cols := by
  unfold canVisit at h
  rw [List.mem_filterMap] at h
  obtain ⟨⟨dir, d⟩, hd, hf⟩ := h
  have hs := gridRegs_sound (mem_doorsOf.1 hd)
  by_cases hc : m.closed d
  · rw [if_pos hc] at hf
    cases hf
  · rw [if_neg hc] at hf
    cases hf
    rcases doorOther_mem (d := d) (c := c) with he | he <;> rw [he]
    · exact hs.2.1
    · exact hs.2.2.1

theorem allNeighbors_subset {rows cols : Nat} {c n : Cell}
    (h : n ∈ allNeighbors rows cols c) : n ∈ cellSeq rows cols := by
  unfold allNeighbors at h
  rw [List.mem_map] at h
  obtain ⟨⟨dir, d⟩, hd, hf⟩ := h
  have hs := gridRegs_sound (mem_doorsOf.1 hd)
  cases hf
  rcases doorOther_mem (d := d) (c := c) with he | he <;> rw [he]
  · exact hs.2.1
  · exact hs.2.2.1

theorem stepDoors_length (c : Cell) :
    (stepDoors c).length = (if 1 ≤ c.1 then 1 else 0) + (if 1 ≤ c.2 then 1 else 0) := by
  unfold stepDoors
  split <;> split <;> simp

theorem rowDoors_sum (x cols : Nat) :
    ((List.range cols).map (fun y => (stepDoors (x, y)).length)).sum =
      (if 1 ≤ x then cols else 0) + (cols - 1) := by
  induction cols with
  | zero => simp
  | succ n ih =>
      rw [List.range_succ, List.map_append, List.sum_append, ih]
      simp only [List.map_cons, List.map_nil, List.sum_cons, List.sum_nil, stepDoors_length]
      split <;> split <;> omega

theorem gridDoors_split (rows cols : Nat) :
    gridDoors rows cols =
      (List.range rows).flatMap
        (fun x => ((List.range cols).map (fun y => (x, y))).flatMap stepDoors) := by
  unfold gridDoors cellSeq
  rw [List.flatMap_assoc]

theorem gridDoors_length (rows C : Nat) :
    (gridDoors rows (C + 1)).length = rows * C + (C + 1) * (rows - 1) := by
  rw [gridDoors_split]
  induction rows with
  | zero => simp
  | succ r ih =>
      rw [List.range_succ, List.flatMap_append, List.length_append, ih]
      simp only [List.flatMap_cons, List.flatMap_nil, List.append_nil, List.length_flatMap,
        List.map_map]
      simp only [Function.comp_def]
      rw [rowDoors_sum]
      cases r with
      | zero => simp
      | succ r' =>
          simp only [Nat.le_add_left, if_pos, Nat.add_sub_cancel]
          ring

/-- Total wall count of the constructed grid. -/
theorem gridDoors_count (rows cols : Nat) (hr : 1 ≤ rows) (hc : 1 ≤ cols) :
    (gridDoors rows cols).length = rows * (cols - 1) + cols * (rows - 1) := by
  obtain ⟨C, rfl⟩ : ∃ C, cols = C + 1 := ⟨cols - 1, by omega⟩
  rw [gridDoors_length, Nat.add_sub_cancel]

/-- `MazeGenerator.groupDoors`: a `reduce` that appends every door to the
bucket keyed by its direction. -/
def groupDoors (doors : List DoorId) : List DoorId × List DoorId :=
  doors.foldl
    (fun acc d =>
      if doorDir d = '|' then (acc.1 ++ [d], acc.2) else (acc.1, acc.2 ++ [d]))
    ([], [])

theorem groupDoors_foldl (l : List DoorId) (acc : List DoorId × List DoorId) :
    l.foldl
        (fun acc d =>
          if doorDir d = '|' then (acc.1 ++ [d], acc.2) else (acc.1, acc.2 ++ [d]))
        acc =
      (acc.1 ++ l.filter (fun d => decide (doorDir d = '|')),
        acc.2 ++ l.filter (fun d => decide (doorDir d = '-'))) := by
  induction l generalizing acc with
  | nil => simp
  | cons d t ih =>
      rw [List.foldl_cons, ih]
      by_cases h : doorDir d = '|'
      · have h2 : ¬ doorDir d = '-' := by
          rw [h]
          decide
        simp [h, h2]
      · have h2 : doorDir d = '-' := by
          by_cases hcc : d.c1.1 = d.c2.1
          · exact absurd (by unfold doorDir; rw [if_pos hcc]) h
          · unfold doorDir
            rw [if_neg hcc]
        simp [h, h2]

/-- `groupDoors` is the stable partition of the door array by direction. -/
theorem groupDoors_eq (l : List DoorId) :
    groupDoors l =
      (l.filter (fun d => decide (doorDir d = '|')),
        l.filter (fun d => decide (doorDir d = '-'))) := by
  unfold groupDoors
  rw [groupDoors_foldl]
  simp

/-- Outcome of one loop iteration. -/
inductive StepOut (σ : Type)
  | cont (st : σ)
  | halt (st : σ)
  | crash (st : σ)

/-- Outcome of a whole fueled loop:  `crash` models a JS runtime TypeError,
`fuelOut` is the modelling artifact of running out of fuel (shown unreachable
by the termination theorems). -/
inductive RunRes (σ : Type)
  | ok (st : σ)
  | crash (st : σ)
  | fuelOut (st : σ)

def RunRes.map (f : σ → τ) : RunRes σ → RunRes τ
  | .ok st => .ok (f st)
  | .crash st => .crash (f st)
  | .fuelOut st => .fuelOut (f st)

def RunRes.get : RunRes σ → σ
  | .ok st => st
  | .crash st => st
  | .fuelOut st => st

def RunRes.isOk : RunRes σ → Bool
  | .ok _ => true
  | _ => false

def RunRes.isFuelOut : RunRes σ → Bool
  | .fuelOut _ => true
  | _ => false

def openDoorCount (m : Maze) : Nat :=
  (m.doors.filter (fun d => !(m.closed d))).length

/-! ### Randomized recursive backtracker (`createRandomMazeRec`) -/

structure RecSt where
  cell : Cell
  v : List Cell
  stack : List Cell
  closed : DoorId → Bool
  rng : List Nat

/-- `_neighbors(cell).filter(n => !v.has(n))`. -/
def recUnvisited (rows cols : Nat) (st : RecSt) : List Cell :=
  (allNeighbors rows cols st.cell).filter (fun n => !(st.v.contains n))

/-- One iteration of the backtracker's `while(true)` body. -/
def recStep (rows cols : Nat) (st : RecSt) : StepOut RecSt :=
  let u := recUnvisited rows cols st
  if u.isEmpty then
    match st.stack.getLast? with
    | none => .halt st
    | some c => .cont { st with cell := c, stack := st.stack.dropLast }
  else
    let k := (randBelow st.rng u.length).1
    let rng1 := (randBelow st.rng u.length).2
    let n := u.getD k (0, 0)
    match ((doorsOf rows cols n).map (fun e => e.2)).find?
        (fun d => decide (d.c1 = st.cell) || decide (d.c2 = st.cell)) with
    | none => .crash { st with rng := rng1 }
    | some d =>
        .cont
          { cell := n, v := setAdd st.v n, stack := st.stack ++ [st.cell],
            closed := Function.update st.closed d false, rng := rng1 }

def recRun (rows cols : Nat) : Nat → RecSt → RunRes RecSt
  | 0, st => .fuelOut st
  | f + 1, st =>
      match recStep rows cols st with
      | .cont st1 => recRun rows cols f st1
      | .halt st1 => .ok st1
      | .crash st1 => .crash st1

/-- Iterate the loop body a fixed number of times (for inspecting
intermediate states of a concrete execution). -/
def recSteps (rows cols : Nat) : Nat → RecSt → RecSt
  | 0, st => st
  | f + 1, st =>
      match recStep rows cols st with
      | .cont st1 => recSteps rows cols f st1
      | .halt st1 => st1
      | .crash st1 => st1

/-- The state right before the backtracker's main loop: a random start cell,
an EMPTY visited set and an empty stack (the source never adds the start
cell to `v`). -/
def recInitSt (m : Maze) (rng : List Nat) : RecSt :=
  let i := (randBelow rng m.rows).1
  let rng1 := (randBelow rng m.rows).2
  let j := (randBelow rng1 m.cols).1
  let rng2 := (randBelow rng1 m.cols).2
  ⟨(i, j), [], [], m.closed, rng2⟩

def recFuel (rows cols : Nat) : Nat := 3 * rows * cols + 1

def createRandomMazeRec (m : Maze) (rng : List Nat) : RunRes Maze :=
  (recRun m.rows m.cols (recFuel m.rows m.cols) (recInitSt m rng)).map
    (fun st => { m with closed := st.closed })

/-! ### Randomized Prim (`createRandomMazePrim`) -/

structure PrimSt where
  walls : List DoorId
  v : List Cell
  closed : DoorId → Bool
  rng : List Nat

def dummyDoor : DoorId := ⟨(0, 0), (0, 0)⟩

/-- `pickWall`: choose a random index, swap it with the last slot, pop. -/
def pickWall (walls : List DoorId) (rng : List Nat) : DoorId × List DoorId × List Nat :=
  let last := walls.length - 1
  let k := (randBelow rng (last + 1)).1
  let rng1 := (randBelow rng (last + 1)).2
  let w := walls.getD k dummyDoor
  let wl := walls.getD last dummyDoor
  (w, (walls.set k wl).dropLast, rng1)

/-- One iteration of Prim's `while(walls.length)` body. -/
def primStep (rows cols : Nat) (st : PrimSt) : PrimSt :=
  let w := (pickWall st.walls st.rng).1
  let walls1 := (pickWall st.walls st.rng).2.1
  let rng1 := (pickWall st.walls st.rng).2.2
  if st.v.contains w.c1 && st.v.contains w.c2 then
    { st with walls := walls1, rng := rng1 }
  else
    let unvisited := if st.v.contains w.c1 then w.c2 else w.c1
    { walls := walls1 ++ (doorsOf rows cols unvisited).map (fun e => e.2),
      v := setAdd st.v unvisited,
      closed := Function.update st.closed w false,
      rng := rng1 }

def primRun (rows cols : Nat) : Nat → PrimSt → RunRes PrimSt
  | 0, st => .fuelOut st
  | f + 1, st =>
      if st.walls.isEmpty then .ok st
      else primRun rows cols f (primStep rows cols st)

/-- Start cell random, visited set `{start}`, frontier = the start's walls. -/
def primInitSt (m : Maze) (rng : List Nat) : PrimSt :=
  let i := (randBelow rng m.rows).1
  let rng1 := (randBelow rng m.rows).2
  let j := (randBelow rng1 m.cols).1
  let rng2 := (randBelow rng1 m.cols).2
  ⟨(doorsOf m.rows m.cols (i, j)).map (fun e => e.2), [(i, j)], m.closed, rng2⟩

def primFuel (rows cols : Nat) : Nat :=
  ((gridRegs rows cols).length + 1) * (rows * cols + 1) + 1

def createRandomMazePrim (m : Maze) (rng : List Nat) : RunRes Maze :=
  (primRun m.rows m.cols (primFuel m.rows m.cols) (primInitSt m rng)).map
    (fun st => { m with closed := st.closed })

/-! ### Fisher-Yates shuffle and union-find -/

/-- `random_shuffle` loop: for `n` from `arr.length` down to 2, swap
position `n - 1` with a random position in `[0, n)`. -/
def shuffleGo : Nat → List DoorId → List Nat → List DoorId × List Nat
  | 0, arr, rng => (arr, rng)
  | 1, arr, rng => (arr, rng)
  | n + 2, arr, rng =>
      let k := (randBelow rng (n + 2)).1
      let rng1 := (randBelow rng (n + 2)).2
      let tmp := arr.getD (n + 1) dummyDoor
      let arr1 := (arr.set (n + 1) (arr.getD k dummyDoor)).set k tmp
      shuffleGo (n + 1) arr1 rng1

def random_shuffle (arr : List DoorId) (rng : List Nat) : List DoorId × List Nat :=
  shuffleGo arr.length arr rng

/-- The union-find store: a JS `Map` as an insertion-ordered association
list (`set` on an existing key updates it in place, otherwise appends). -/
structure UF (α : Type) where
  m : List (α × α)

section UFdefs

variable {α : Type} [DecidableEq α]

def mfind (m : List (α × α)) (k : α) : Option α :=
  (m.find? (fun e => decide (e.1 = k))).map (fun e => e.2)

def mhas (m : List (α × α)) (k : α) : Bool :=
  (m.find? (fun e => decide (e.1 = k))).isSome

def mset (m : List (α × α)) (k v : α) : List (α × α) :=
  if mhas m k then m.map (fun e => if e.1 = k then (k, v) else e) else m ++ [(k, v)]

/-- The path-halving `while` loop of `UF.root`.  The `none` branches model
a `m.get` miss (never reached from states the program builds, where every
stored parent is itself registered). -/
def rootGo : Nat → List (α × α) → α → α × List (α × α)
  | 0, m, p => (p, m)
  | f + 1, m, p =>
      match mfind m p with
      | none => (p, m)
      | some par =>
          if par = p then (p, m)
          else
            match mfind m par with
            | none => (p, m)
            | some ppar => rootGo f (mset m p ppar) ppar

/-- `UF.root`: lazily register `p`, then follow parents with path halving.
The fuel `|m| + 1` is a modelling artifact; the well-formedness lemmas show
it is never exhausted on states the program builds. -/
def UF.root (uf : UF α) (p : α) : α × UF α :=
  let m0 := if mhas uf.m p then uf.m else mset uf.m p p
  let r := rootGo (m0.length + 1) m0 p
  (r.1, ⟨r.2⟩)

def UF.join (uf : UF α) (p q : α) : UF α :=
  let rp := (uf.root p).1
  let uf1 := (uf.root p).2
  let rq := (uf1.root q).1
  let uf2 := (uf1.root q).2
  if rp = rq then uf2 else ⟨mset uf2.m rp rq⟩

def UF.joined (uf : UF α) (p q : α) : Bool × UF α :=
  let rp := (uf.root p).1
  let uf1 := (uf.root p).2
  let rq := (uf1.root q).1
  let uf2 := (uf1.root q).2
  (decide (rp = rq), uf2)

/-- One step of the `rootsNbr` iteration: read the entry's current value,
take its root (mutating the store), add it to the set of roots seen. -/
def UF.rootsNbrStep (acc : List α × UF α) (k : α) : List α × UF α :=
  let p := (mfind acc.2.m k).getD k
  let r := UF.root acc.2 p
  ((if acc.1.contains r.1 then acc.1 else acc.1 ++ [r.1]), r.2)

/-- `UF.rootsNbr`: iterate over the map's entries (keys in insertion order,
each value read at visit time, since `root` mutates the map during the
iteration), collect the root of each value into a set, return its size. -/
def UF.rootsNbr (uf : UF α) : Nat × UF α :=
  let res := (uf.m.map (fun e => e.1)).foldl UF.rootsNbrStep (([] : List α), uf)
  (res.1.length, res.2)

def UF.componentCount (uf : UF α) : Nat := uf.rootsNbr.1

end UFdefs

/-! ### Randomized Kruskal (`createRandomMazeKruskal`) -/

structure KrusSt where
  closed : DoorId → Bool
  uf : UF Cell

/-- Body of Kruskal's `for (let d of maze.doors)` loop. -/
def kruskalStep (st : KrusSt) (d : DoorId) : KrusSt :=
  let j := st.uf.joined d.c1 d.c2
  if j.1 then { st with uf := j.2 }
  else { closed := Function.update st.closed d false, uf := j.2.join d.c1 d.c2 }

def kruskalRun : Nat → List DoorId → KrusSt → RunRes KrusSt
  | _, [], st => .ok st
  | 0, _ :: _, st => .fuelOut st
  | f + 1, d :: ds, st => kruskalRun f ds (kruskalStep st d)

def createRandomMazeKruskal (m : Maze) (rng : List Nat) : RunRes Maze :=
  let doors1 := (random_shuffle m.doors rng).1
  (kruskalRun (doors1.length + 1) doors1 ⟨m.closed, ⟨[]⟩⟩).map
    (fun st => { m with doors := doors1, closed := st.closed })

/-! ### Solver (`MazeGenerator.solve`) -/

/-- Solver loop state.  `current = none` models the JS value `undefined`
(obtained by reading `path[path.length - 1]` of an empty array). -/
structure SolveSt where
  current : Option Cell
  path : List Cell
  v : List Cell
  rng : List Nat

inductive SolveOut
  | done (path : List Cell)
  | cont (st : SolveSt)
  | errPathNotFound
  | errUndefined

/-- Result of the whole `solve` call.  `errUndefined` is the TypeError that
JS raises when the loop body dereferences `undefined`;
`errPathNotFound` is the `Cannot find a way` Error thrown by the source. -/
inductive SolveRes
  | ok (path : List Cell)
  | errPathNotFound
  | errUndefined
  | fuelOut
deriving DecidableEq, Repr

/-- One test of the `while (current !== endCell)` guard plus (when taken)
one iteration of the loop body. -/
def solveStep (m : Maze) (endC : Cell) (st : SolveSt) : SolveOut :=
  if st.current = some endC then .done st.path
  else
    match st.current with
    | none => .errUndefined
    | some c =>
        let u := (canVisit m c).filter (fun n => !(st.v.contains n))
        if u.isEmpty then
          if st.path.length = 0 then .errPathNotFound
          else
            let path1 := st.path.dropLast
            .cont { st with current := path1.getLast?, path := path1 }
        else
          let k := (randBelow st.rng u.length).1
          let rng1 := (randBelow st.rng u.length).2
          let n := u.getD k (0, 0)
          .cont { current := some n, path := st.path ++ [n], v := setAdd st.v n, rng := rng1 }

def solveRun (m : Maze) (endC : Cell) : Nat → SolveSt → SolveRes
  | 0, _ => .fuelOut
  | f + 1, st =>
      match solveStep m endC st with
      | .done p => .ok p
      | .cont st1 => solveRun m endC f st1
      | .errPathNotFound => .errPathNotFound
      | .errUndefined => .errUndefined

def solveInitSt (startC : Cell) (rng : List Nat) : SolveSt :=
  ⟨some startC, [startC], [startC], rng⟩

def solveFuel (rows cols : Nat) : Nat := 2 * rows * cols + 2

def solve (m : Maze) (startC endC : Cell) (rng : List Nat) : SolveRes :=
  solveRun m endC (solveFuel m.rows m.cols) (solveInitSt startC rng)

/-- The solver loop with the maze state threaded through every iteration
(the body contains no write to the maze, which is what the frame theorem
makes explicit). -/
def solveRunS (endC : Cell) : Nat → Maze × SolveSt → SolveRes × Maze
  | 0, s => (.fuelOut, s.1)
  | f + 1, s =>
      match solveStep s.1 endC s.2 with
      | .done p => (.ok p, s.1)
      | .cont st1 => solveRunS endC f (s.1, st1)
      | .errPathNotFound => (.errPathNotFound, s.1)
      | .errUndefined => (.errUndefined, s.1)

/-- Reachability through open doors, following `canVisit` edges. -/
inductive ReachOpen (m : Maze) : Cell → Cell → Prop
  | refl (c : Cell) : ReachOpen m c c
  | step {a b c : Cell} : ReachOpen m a b → c ∈ canVisit m b → ReachOpen m a c

/-! ### Construction invariants -/

theorem doorsOf_vert {rows cols x y : Nat} (h1 : x + 1 < rows) (h2 : y < cols) :
    (Dir.down, (⟨(x, y), (x + 1, y)⟩ : DoorId)) ∈ doorsOf rows cols (x, y) ∧
      (Dir.up, (⟨(x, y), (x + 1, y)⟩ : DoorId)) ∈ doorsOf rows cols (x + 1, y) := by
  have hm : mkDoor (x + 1, y) ((x + 1, y).1 - 1, (x + 1, y).2) = ⟨(x, y), (x + 1, y)⟩ := by
    rw [show ((x + 1, y).1 - 1, (x + 1, y).2) = (x, y) by simp]
    exact mkDoor_up (by omega)
  constructor
  · rw [mem_doorsOf]
    unfold gridRegs
    refine List.mem_flatMap.2 ⟨(x + 1, y), mem_cellSeq.2 ⟨h1, h2⟩, mem_stepRegs.2 ?_⟩
    left
    exact ⟨by omega, Or.inr ⟨by simp, by rw [hm]⟩⟩
  · rw [mem_doorsOf]
    unfold gridRegs
    refine List.mem_flatMap.2 ⟨(x + 1, y), mem_cellSeq.2 ⟨h1, h2⟩, mem_stepRegs.2 ?_⟩
    left
    exact ⟨by omega, Or.inl ⟨rfl, by rw [hm]⟩⟩

theorem doorsOf_horiz {rows cols x y : Nat} (h1 : x < rows) (h2 : y + 1 < cols) :
    (Dir.right, (⟨(x, y), (x, y + 1)⟩ : DoorId)) ∈ doorsOf rows cols (x, y) ∧
      (Dir.left, (⟨(x, y), (x, y + 1)⟩ : DoorId)) ∈ doorsOf rows cols (x, y + 1) := by
  have hm : mkDoor (x, y + 1) ((x, y + 1).1, (x, y + 1).2 - 1) = ⟨(x, y), (x, y + 1)⟩ := by
    rw [show ((x, y + 1).1, (x, y + 1).2 - 1) = (x, y) by simp]
    exact mkDoor_left (by omega)
  constructor
  · rw [mem_doorsOf]
    unfold gridRegs
    refine List.mem_flatMap.2 ⟨(x, y + 1), mem_cellSeq.2 ⟨h1, h2⟩, mem_stepRegs.2 ?_⟩
    right
    exact ⟨by omega, Or.inr ⟨by simp, by rw [hm]⟩⟩
  · rw [mem_doorsOf]
    unfold gridRegs
    refine List.mem_flatMap.2 ⟨(x, y + 1), mem_cellSeq.2 ⟨h1, h2⟩, mem_stepRegs.2 ?_⟩
    right
    exact ⟨by omega, Or.inl ⟨rfl, by rw [hm]⟩⟩

/-- Every grid door is mutually registered in both endpoint cells'
direction maps. -/
theorem gridDoors_mutual {rows cols : Nat} {d : DoorId} (h : d ∈ gridDoors rows cols) :
    (∃ dir, (dir, d) ∈ doorsOf rows cols d.c1) ∧
      (∃ dir, (dir, d) ∈ doorsOf rows cols d.c2) := by
  rcases mem_gridDoors.1 h with ⟨x, y, h1, h2, rfl⟩ | ⟨x, y, h1, h2, rfl⟩
  · exact ⟨⟨Dir.down, (doorsOf_vert h1 h2).1⟩, ⟨Dir.up, (doorsOf_vert h1 h2).2⟩⟩
  · exact ⟨⟨Dir.right, (doorsOf_horiz h1 h2).1⟩, ⟨Dir.left, (doorsOf_horiz h1 h2).2⟩⟩

theorem RunRes.get_map (f : σ → τ) (r : RunRes σ) : (r.map f).get = f r.get := by
  cases r <;> rfl

theorem RunRes.isFuelOut_map (f : σ → τ) (r : RunRes σ) :
    (r.map f).isFuelOut = r.isFuelOut := by
  cases r <;> rfl

theorem randBelow_lt {rng : List Nat} {n : Nat} (h : 0 < n) : (randBelow rng n).1 < n := by
  unfold randBelow
  simp only []
  rw [if_neg (by omega)]
  exact Nat.mod_lt _ h

/-! ### The shuffle permutes the door array -/

theorem cons_set_perm (d : DoorId) :
    ∀ (t : List DoorId) (k : Nat) (a : DoorId), k < t.length →
      List.Perm (t.getD k d :: t.set k a) (a :: t) := by
  intro t
  induction t with
  | nil => intro k a hk; simp at hk
  | cons b t' ih =>
      intro k a hk
      cases k with
      | zero => exact List.Perm.swap a b t'
      | succ k' =>
          have hk' : k' < t'.length := by simpa using hk
          have h0 : (b :: t').getD (k' + 1) d :: (b :: t').set (k' + 1) a =
              t'.getD k' d :: b :: t'.set k' a := by simp
          rw [h0]
          have h1 : List.Perm (t'.getD k' d :: b :: t'.set k' a)
              (b :: t'.getD k' d :: t'.set k' a) := List.Perm.swap b _ _
          have h2 : List.Perm (b :: t'.getD k' d :: t'.set k' a) (b :: a :: t') :=
            (ih k' a hk').cons b
          have h3 : List.Perm (b :: a :: t') (a :: b :: t') := List.Perm.swap a b t'
          exact (h1.trans h2).trans h3

theorem set_swap_perm (d : DoorId) :
    ∀ (l : List DoorId) (i j : Nat), i < l.length → j < l.length →
      List.Perm ((l.set i (l.getD j d)).set j (l.getD i d)) l := by
  intro l
  induction l with
  | nil => intro i j hi; simp at hi
  | cons a t ih =>
      intro i j hi hj
      cases i with
      | zero =>
          cases j with
          | zero => simp
          | succ j' =>
              have hj' : j' < t.length := by simpa using hj
              simp only [List.getD_cons_succ, List.getD_cons_zero, List.set_cons_zero,
                List.set_cons_succ]
              exact cons_set_perm d t j' a hj'
      | succ i' =>
          have hi' : i' < t.length := by simpa using hi
          cases j with
          | zero =>
              simp only [List.getD_cons_succ, List.getD_cons_zero, List.set_cons_succ,
                List.set_cons_zero]
              exact cons_set_perm d t i' a hi'
          | succ j' =>
              have hj' : j' < t.length := by simpa using hj
              simp only [List.getD_cons_succ, List.set_cons_succ]
              exact (ih i' j' hi' hj').cons a

theorem shuffleGo_perm :
    ∀ (n : Nat) (arr : List DoorId) (rng : List Nat), n ≤ arr.length →
      List.Perm (shuffleGo n arr rng).1 arr := by
  intro n
  induction n using Nat.strong_induction_on with
  | _ n ih =>
      intro arr rng hn
      match n, hn with
      | 0, _ => exact List.Perm.refl _
      | 1, _ => exact List.Perm.refl _
      | (m + 2), hn =>
          unfold shuffleGo
          simp only []
          have hk : (randBelow rng (m + 2)).1 < m + 2 := randBelow_lt (by omega)
          have hswap := set_swap_perm dummyDoor arr (m + 1) (randBelow rng (m + 2)).1
            (by omega) (by omega)
          have hlen : ((arr.set (m + 1) (arr.getD (randBelow rng (m + 2)).1 dummyDoor)).set
              (randBelow rng (m + 2)).1 (arr.getD (m + 1) dummyDoor)).length = arr.length := by
            simp
          have harg : m + 1 ≤ ((arr.set (m + 1)
              (arr.getD (randBelow rng (m + 2)).1 dummyDoor)).set
              (randBelow rng (m + 2)).1 (arr.getD (m + 1) dummyDoor)).length := by
            rw [hlen]
            omega
          exact (ih (m + 1) (by omega) _ (randBelow rng (m + 2)).2 harg).trans hswap

theorem random_shuffle_perm (arr : List DoorId) (rng : List Nat) :
    List.Perm (random_shuffle arr rng).1 arr :=
  shuffleGo_perm arr.length arr rng (Nat.le_refl _)

/-! ### The PathNotFound throw is dead code -/

/-- States reached from a `solve` entry state satisfy: an empty path forces
`current = undefined`. -/
def SolveInv0 (st : SolveSt) : Prop := st.path = [] → st.current = none

theorem solveStep_not_pnf {m : Maze} {endC : Cell} {st : SolveSt} (hinv : SolveInv0 st) :
    solveStep m endC st ≠ SolveOut.errPathNotFound := by
  unfold solveStep
  by_cases h1 : st.current = some endC
  · rw [if_pos h1]
    intro h
    cases h
  · rw [if_neg h1]
    cases hcur : st.current with
    | none =>
        intro h
        cases h
    | some c =>
        simp only []
        by_cases h2 : (List.filter (fun n => !st.v.contains n) (canVisit m c)).isEmpty = true
        · rw [if_pos h2]
          by_cases h3 : st.path.length = 0
          · have hpath : st.path = [] := List.length_eq_zero.1 h3
            rw [hinv hpath] at hcur
            cases hcur
          · rw [if_neg h3]
            intro h
            cases h
        · rw [if_neg h2]
          intro h
          cases h

theorem solveStep_cont_inv {m : Maze} {endC : Cell} {st st1 : SolveSt} (hinv : SolveInv0 st)
    (h : solveStep m endC st = SolveOut.cont st1) : SolveInv0 st1 := by
  unfold solveStep at h
  by_cases h1 : st.current = some endC
  · rw [if_pos h1] at h
    cases h
  · rw [if_neg h1] at h
    cases hcur : st.current with
    | none =>
        rw [hcur] at h
        cases h
    | some c =>
        rw [hcur] at h
        simp only [] at h
        by_cases h2 : (List.filter (fun n => !st.v.contains n) (canVisit m c)).isEmpty = true
        · rw [if_pos h2] at h
          by_cases h3 : st.path.length = 0
          · rw [if_pos h3] at h
            cases h
          · rw [if_neg h3] at h
            cases h
            intro hp
            simp only [] at hp ⊢
            rw [hp]
            rfl
        · rw [if_neg h2] at h
          cases h
          intro hp
          simp at hp

theorem solveRun_not_pnf (m : Maze) (endC : Cell) :
    ∀ (fuel : Nat) (st : SolveSt), SolveInv0 st →
      solveRun m endC fuel st ≠ SolveRes.errPathNotFound := by
  intro fuel
  induction fuel with
  | zero =>
      intro st _ h
      cases h
  | succ f ih =>
      intro st hinv
      unfold solveRun
      cases hstep : solveStep m endC st with
      | done p =>
          intro h
          cases h
      | cont st1 => exact ih st1 (solveStep_cont_inv hinv hstep)
      | errPathNotFound => exact absurd hstep (solveStep_not_pnf hinv)
      | errUndefined =>
          intro h
          cases h

/-! ### Wall opening is monotone: closed flags are only ever set to false -/

/-- `g` can differ from `f` only by doors having been opened. -/
def ClosedLe (g f : DoorId → Bool) : Prop := ∀ d, g d = true → f d = true

theorem ClosedLe.refl (f : DoorId → Bool) : ClosedLe f f := fun _ h => h

theorem ClosedLe.trans {h g f : DoorId → Bool} (h1 : ClosedLe h g) (h2 : ClosedLe g f) :
    ClosedLe h f := fun d hd => h2 d (h1 d hd)

theorem closedLe_update {f : DoorId → Bool} (d0 : DoorId) :
    ClosedLe (Function.update f d0 false) f := by
  intro d hd
  by_cases h : d = d0
  · rw [h, Function.update_same] at hd
    cases hd
  · rwa [Function.update_noteq h] at hd

def StepOut.get : StepOut σ → σ
  | .cont st => st
  | .halt st => st
  | .crash st => st

theorem recStep_closed_le (rows cols : Nat) (st : RecSt) :
    ClosedLe ((recStep rows cols st).get).closed st.closed := by
  unfold recStep
  by_cases h1 : (recUnvisited rows cols st).isEmpty = true
  · rw [if_pos h1]
    cases h2 : st.stack.getLast? with
    | none => exact ClosedLe.refl _
    | some c => exact ClosedLe.refl _
  · rw [if_neg h1]
    simp only []
    cases h2 : ((doorsOf rows cols
        ((recUnvisited rows cols st).getD
          (randBelow st.rng (recUnvisited rows cols st).length).1 (0, 0))).map
        (fun e => e.2)).find?
        (fun d => decide (d.c1 = st.cell) || decide (d.c2 = st.cell)) with
    | none => exact ClosedLe.refl _
    | some d => exact closedLe_update d

theorem recRun_closed_le (rows cols : Nat) :
    ∀ (fuel : Nat) (st : RecSt), ClosedLe ((recRun rows cols fuel st).get).closed st.closed := by
  intro fuel
  induction fuel with
  | zero => exact fun st => ClosedLe.refl _
  | succ f ih =>
      intro st
      unfold recRun
      cases hstep : recStep rows cols st with
      | cont st1 =>
          have h1 : ClosedLe st1.closed st.closed := by
            have := recStep_closed_le rows cols st
            rwa [hstep] at this
          exact (ih st1).trans h1
      | halt st1 =>
          have := recStep_closed_le rows cols st
          rwa [hstep] at this
      | crash st1 =>
          have := recStep_closed_le rows cols st
          rwa [hstep] at this

theorem primStep_closed_le (rows cols : Nat) (st : PrimSt) :
    ClosedLe (primStep rows cols st).closed st.closed := by
  unfold primStep
  by_cases h1 : (st.v.contains (pickWall st.walls st.rng).1.c1 &&
      st.v.contains (pickWall st.walls st.rng).1.c2) = true
  · rw [if_pos h1]
    exact ClosedLe.refl _
  · rw [if_neg h1]
    exact closedLe_update _

theorem primRun_closed_le (rows cols : Nat) :
    ∀ (fuel : Nat) (st : PrimSt),
      ClosedLe ((primRun rows cols fuel st).get).closed st.closed := by
  intro fuel
  induction fuel with
  | zero => exact fun st => ClosedLe.refl _
  | succ f ih =>
      intro st
      unfold primRun
      by_cases h1 : st.walls.isEmpty = true
      · rw [if_pos h1]
        exact ClosedLe.refl _
      · rw [if_neg h1]
        exact (ih _).trans (primStep_closed_le rows cols st)

theorem kruskalStep_closed_le (st : KrusSt) (d : DoorId) :
    ClosedLe (kruskalStep st d).closed st.closed := by
  unfold kruskalStep
  by_cases h1 : (st.uf.joined d.c1 d.c2).1 = true
  · rw [if_pos h1]
    exact ClosedLe.refl _
  · rw [if_neg h1]
    exact closedLe_update _

theorem kruskalRun_closed_le :
    ∀ (fuel : Nat) (ds : List DoorId) (st : KrusSt),
      ClosedLe ((kruskalRun fuel ds st).get).closed st.closed := by
  intro fuel
  induction fuel with
  | zero =>
      intro ds st
      cases ds with
      | nil => exact ClosedLe.refl _
      | cons d t => exact ClosedLe.refl _
  | succ f ih =>
      intro ds st
      cases ds with
      | nil => exact ClosedLe.refl _
      | cons d t => exact (ih t _).trans (kruskalStep_closed_le st d)

/-! ### The solver never mutates the maze -/

theorem solveRunS_frame (endC : Cell) :
    ∀ (fuel : Nat) (s : Maze × SolveSt),
      (solveRunS endC fuel s).2 = s.1 ∧
        (solveRunS endC fuel s).1 = solveRun s.1 endC fuel s.2 := by
  intro fuel
  induction fuel with
  | zero => exact fun s => ⟨rfl, rfl⟩
  | succ f ih =>
      intro s
      unfold solveRunS solveRun
      cases hstep : solveStep s.1 endC s.2 with
      | done p => exact ⟨rfl, rfl⟩
      | cont st1 => exact ih (s.1, st1)
      | errPathNotFound => exact ⟨rfl, rfl⟩
      | errUndefined => exact ⟨rfl, rfl⟩

/-! ### Solver correctness and completeness -/

theorem contains_true_iff {v : List Cell} {y : Cell} : v.contains y = true ↔ y ∈ v :=
  List.elem_iff

theorem contains_false_iff {v : List Cell} {y : Cell} : v.contains y = false ↔ y ∉ v := by
  rw [← Bool.not_eq_true, not_iff_not]
  exact contains_true_iff

theorem setAdd_of_not_mem {v : List Cell} {c : Cell} (h : c ∉ v) : setAdd v c = v ++ [c] := by
  unfold setAdd
  rw [if_neg]
  rw [contains_true_iff]
  exact h

/-- Invariant of the solver loop on the way to a reachable target. -/
structure SolveInv (m : Maze) (s e : Cell) (st : SolveSt) : Prop where
  path_ne : st.path ≠ []
  head : st.path.head? = some s
  cur : st.current = st.path.getLast?
  chain : List.Chain' (fun a b => b ∈ canVisit m a) st.path
  nodup : st.path.Nodup
  path_sub_v : ∀ x ∈ st.path, x ∈ st.v
  v_sub : ∀ x ∈ st.v, x ∈ cellSeq m.rows m.cols
  v_nodup : st.v.Nodup
  s_mem : s ∈ st.v
  closure : ∀ x ∈ st.v, x ∉ st.path → ∀ y ∈ canVisit m x, y ∈ st.v
  e_mem : e ∈ st.v → st.current = some e

theorem reach_mem_of_closed {m : Maze} {s e : Cell} (hreach : ReachOpen m s e)
    {S : List Cell} (hs : s ∈ S) (hcl : ∀ x ∈ S, ∀ y ∈ canVisit m x, y ∈ S) : e ∈ S := by
  induction hreach with
  | refl => exact hs
  | step _ hbc ih => exact hcl _ ih _ hbc

def solveMeasure (m : Maze) (st : SolveSt) : Nat :=
  2 * ((cellSeq m.rows m.cols).length - st.v.length) + st.path.length

theorem solveStep_done {m : Maze} {e : Cell} {st : SolveSt} (h : st.current = some e) :
    solveStep m e st = SolveOut.done st.path := by
  unfold solveStep
  rw [if_pos h]

theorem solveStep_backtrack {m : Maze} {e : Cell} {st : SolveSt} {c : Cell}
    (hcur : st.current = some c) (hne : st.current ≠ some e)
    (hemp : ((canVisit m c).filter (fun n => !(st.v.contains n))).isEmpty = true)
    (hlen : st.path.length ≠ 0) :
    solveStep m e st =
      SolveOut.cont
        { st with current := st.path.dropLast.getLast?, path := st.path.dropLast } := by
  unfold solveStep
  rw [if_neg hne, hcur]
  simp only []
  rw [if_pos hemp, if_neg hlen]

theorem solveStep_push {m : Maze} {e : Cell} {st : SolveSt} {c : Cell} {u : List Cell}
    (hcur : st.current = some c) (hne : st.current ≠ some e)
    (hu : u = (canVisit m c).filter (fun n => !(st.v.contains n)))
    (hemp : ¬ u.isEmpty = true) :
    solveStep m e st =
      SolveOut.cont
        { current := some (u.getD (randBelow st.rng u.length).1 (0, 0)),
          path := st.path ++ [u.getD (randBelow st.rng u.length).1 (0, 0)],
          v := setAdd st.v (u.getD (randBelow st.rng u.length).1 (0, 0)),
          rng := (randBelow st.rng u.length).2 } := by
  subst hu
  unfold solveStep
  rw [if_neg hne, hcur]
  simp only []
  rw [if_neg hemp]

theorem solveRun_reach_ok {m : Maze} {s e : Cell} (hreach : ReachOpen m s e) :
    ∀ (fuel : Nat) (st : SolveSt), SolveInv m s e st → solveMeasure m st < fuel →
      ∃ p, solveRun m e fuel st = SolveRes.ok p ∧ p.head? = some s ∧
        p.getLast? = some e ∧ List.Chain' (fun a b => b ∈ canVisit m a) p ∧ p.Nodup := by
  intro fuel
  induction fuel with
  | zero =>
      intro st _ hm
      omega
  | succ f ih =>
      intro st hinv hm
      have hlastmem : st.path.getLast hinv.path_ne ∈ st.path := List.getLast_mem _
      obtain ⟨c, hc⟩ : ∃ c, st.current = some c :=
        ⟨st.path.getLast hinv.path_ne, by
          rw [hinv.cur]
          exact List.getLast?_eq_getLast _ hinv.path_ne⟩
      have hcpath : st.path.dropLast ++ [c] = st.path := by
        apply List.dropLast_append_getLast?
        rw [← hinv.cur]
        exact hc
      have hcmem : c ∈ st.path := by
        rw [← hcpath]
        exact List.mem_append_right _ (List.mem_singleton_self c)
      by_cases hce : c = e
      · subst hce
        refine ⟨st.path, ?_, hinv.head, ?_, hinv.chain, hinv.nodup⟩
        · unfold solveRun
          rw [solveStep_done hc]
        · rw [← hinv.cur, hc]
      · have hne : st.current ≠ some e := by
          rw [hc]
          intro h
          exact hce (Option.some_injective _ h)
        have hee : e ∉ st.v := by
          intro hev
          exact hne (hinv.e_mem hev)
        by_cases hemp :
            ((canVisit m c).filter (fun n => !(st.v.contains n))).isEmpty = true
        · -- all open neighbors of the current cell are already visited: backtrack
          have hsub : ∀ y ∈ canVisit m c, y ∈ st.v := by
            intro y hy
            by_contra hyv
            have hyu : y ∈ (canVisit m c).filter (fun n => !(st.v.contains n)) :=
              List.mem_filter.2 ⟨hy, by
                rw [Bool.not_eq_true']
                exact contains_false_iff.2 hyv⟩
            rw [List.isEmpty_iff.1 hemp] at hyu
            cases hyu
          by_cases hlast : st.path.dropLast = []
          · exfalso
            have hpc : st.path = [c] := by
              rw [← hcpath, hlast]
              rfl
            have hclosed : ∀ x ∈ st.v, ∀ y ∈ canVisit m x, y ∈ st.v := by
              intro x hx y hy
              by_cases hxp : x ∈ st.path
              · rw [hpc, List.mem_singleton] at hxp
                subst hxp
                exact hsub y hy
              · exact hinv.closure x hx hxp y hy
            exact hee (reach_mem_of_closed hreach hinv.s_mem hclosed)
          · have hstep := solveStep_backtrack hc hne hemp (by
              intro h
              exact hinv.path_ne (List.length_eq_zero.1 h))
            have hinv1 : SolveInv m s e
                { st with current := st.path.dropLast.getLast?, path := st.path.dropLast } := by
              refine ⟨hlast, ?_, rfl, ?_, ?_, ?_, hinv.v_sub, hinv.v_nodup, hinv.s_mem, ?_, ?_⟩
              · rw [← hinv.head]
                conv_rhs => rw [← hcpath]
                rw [List.head?_append_of_ne_nil _ hlast]
              · have := hinv.chain
                rw [← hcpath] at this
                exact (List.chain'_append.1 this).1
              · exact hinv.nodup.sublist (List.dropLast_sublist _)
              · intro x hx
                exact hinv.path_sub_v x ((List.dropLast_sublist _).mem hx)
              · intro x hx hxp y hy
                by_cases hxpath : x ∈ st.path
                · have : x = c := by
                    rw [← hcpath, List.mem_append] at hxpath
                    rcases hxpath with h1 | h1
                    · exact absurd h1 hxp
                    · exact List.mem_singleton.1 h1
                  subst this
                  exact hsub y hy
                · exact hinv.closure x hx hxpath y hy
              · intro hev
                exact absurd hev hee
            have hmeas1 : solveMeasure m
                { st with current := st.path.dropLast.getLast?, path := st.path.dropLast } <
                  solveMeasure m st := by
              unfold solveMeasure
              simp only [List.length_dropLast]
              have hp1 : 0 < st.path.length := List.length_pos.2 hinv.path_ne
              omega
            have hrec := ih _ hinv1 (by omega)
            unfold solveRun
            rw [hstep]
            exact hrec
        · -- pick an unvisited open neighbor and advance
          have hstep := solveStep_push hc hne rfl hemp
          have hulen : 0 <
              ((canVisit m c).filter (fun n => !(st.v.contains n))).length := by
            cases hu0 : (canVisit m c).filter (fun n => !(st.v.contains n)) with
            | nil =>
                rw [hu0] at hemp
                exact absurd rfl hemp
            | cons a t => simp
          have hklt := @randBelow_lt st.rng _ hulen
          have hnu : ((canVisit m c).filter (fun n => !(st.v.contains n))).getD
              (randBelow st.rng
                ((canVisit m c).filter (fun n => !(st.v.contains n))).length).1 (0, 0) ∈
              (canVisit m c).filter (fun n => !(st.v.contains n)) := by
            rw [List.getD_eq_getElem _ _ hklt]
            exact List.getElem_mem _
          generalize hn : ((canVisit m c).filter (fun n => !(st.v.contains n))).getD
              (randBelow st.rng
                ((canVisit m c).filter (fun n => !(st.v.contains n))).length).1 (0, 0) = n at hstep hnu
          have hncv : n ∈ canVisit m c := (List.mem_filter.1 hnu).1
          have hnv : n ∉ st.v := by
            have := (List.mem_filter.1 hnu).2
            rw [Bool.not_eq_true'] at this
            exact contains_false_iff.1 this
          have hsa : setAdd st.v n = st.v ++ [n] := setAdd_of_not_mem hnv
          rw [hsa] at hstep
          have hnpath : n ∉ st.path := fun hnp => hnv (hinv.path_sub_v n hnp)
          have hgl : st.path.getLast? = some c := by
            rw [← hinv.cur]
            exact hc
          have hinv1 : SolveInv m s e
              { current := some n, path := st.path ++ [n], v := st.v ++ [n],
                rng := (randBelow st.rng
                  ((canVisit m c).filter (fun nn => !(st.v.contains nn))).length).2 } := by
            refine ⟨by simp, ?_, ?_, ?_, ?_, ?_, ?_, ?_, ?_, ?_, ?_⟩
            · rw [List.head?_append_of_ne_nil _ hinv.path_ne]
              exact hinv.head
            · rw [List.getLast?_concat]
            · rw [List.chain'_append]
              refine ⟨hinv.chain, List.chain'_singleton n, ?_⟩
              intro x hx y hy
              rw [hgl] at hx
              cases hx
              cases hy
              exact hncv
            · rw [List.nodup_append]
              refine ⟨hinv.nodup, List.nodup_singleton n, ?_⟩
              intro a ha ha2
              rw [List.mem_singleton] at ha2
              subst ha2
              exact hnpath ha
            · intro x hx
              rw [List.mem_append] at hx ⊢
              rcases hx with h1 | h1
              · exact Or.inl (hinv.path_sub_v x h1)
              · exact Or.inr h1
            · intro x hx
              rw [List.mem_append] at hx
              rcases hx with h1 | h1
              · exact hinv.v_sub x h1
              · rw [List.mem_singleton] at h1
                subst h1
                exact canVisit_subset hncv
            · rw [List.nodup_append]
              refine ⟨hinv.v_nodup, List.nodup_singleton n, ?_⟩
              intro a ha ha2
              rw [List.mem_singleton] at ha2
              subst ha2
              exact hnv ha
            · exact List.mem_append_left _ hinv.s_mem
            · intro x hx hxp y hy
              rw [List.mem_append] at hx
              rcases hx with h1 | h1
              · have hxpath : x ∉ st.path := by
                  intro hxx
                  exact hxp (List.mem_append_left _ hxx)
                exact List.mem_append_left _ (hinv.closure x h1 hxpath y hy)
              · rw [List.mem_singleton] at h1
                subst h1
                exact absurd (List.mem_append_right _ (List.mem_singleton_self x)) hxp
            · intro hev
              rw [List.mem_append] at hev
              rcases hev with h1 | h1
              · exact absurd h1 hee
              · rw [List.mem_singleton] at h1
                rw [h1]
          have hvL : (st.v ++ [n]).length ≤ (cellSeq m.rows m.cols).length := by
            have hsubp : List.Subperm (st.v ++ [n]) (cellSeq m.rows m.cols) := by
              apply List.Nodup.subperm
              · rw [List.nodup_append]
                refine ⟨hinv.v_nodup, List.nodup_singleton n, ?_⟩
                intro a ha ha2
                rw [List.mem_singleton] at ha2
                subst ha2
                exact hnv ha
              · intro x hx
                rw [List.mem_append] at hx
                rcases hx with h1 | h1
                · exact hinv.v_sub x h1
                · rw [List.mem_singleton] at h1
                  subst h1
                  exact canVisit_subset hncv
            exact hsubp.length_le
          have hmeas1 : solveMeasure m
              { current := some n, path := st.path ++ [n], v := st.v ++ [n],
                rng := (randBelow st.rng
                  ((canVisit m c).filter (fun nn => !(st.v.contains nn))).length).2 } <
                solveMeasure m st := by
            unfold solveMeasure
            simp only [List.length_append, List.length_singleton]
            have := hvL
            simp only [List.length_append, List.length_singleton] at this
            omega
          have hrec := ih _ hinv1 (by omega)
          unfold solveRun
          rw [hstep]
          exact hrec

theorem solveRun_one_step_done {m : Maze} {endC : Cell} {st : SolveSt} {f : Nat}
    {p : List Cell} (h : solveStep m endC st = SolveOut.done p) :
    solveRun m endC (f + 1) st = SolveRes.ok p := by
  unfold solveRun
  rw [h]

theorem solveInitSt_inv {m : Maze} {s e : Cell} {rng : List Nat}
    (hs : s ∈ cellSeq m.rows m.cols) : SolveInv m s e (solveInitSt s rng) := by
  refine ⟨by simp [solveInitSt], rfl, rfl, ?_, ?_, ?_, ?_, ?_, ?_, ?_, ?_⟩
  · exact List.chain'_singleton s
  · exact List.nodup_singleton s
  · intro x hx
    exact hx
  · intro x hx
    simp only [solveInitSt, List.mem_singleton] at hx
    subst hx
    exact hs
  · exact List.nodup_singleton s
  · exact List.mem_singleton_self s
  · intro x hx hxp
    exact absurd hx hxp
  · intro hev
    simp only [solveInitSt, List.mem_singleton] at hev
    rw [hev]
    rfl

theorem solve_reach_ok {m : Maze} {s e : Cell} (rng : List Nat)
    (hs : s ∈ cellSeq m.rows m.cols) (hreach : ReachOpen m s e) :
    ∃ p, solve m s e rng = SolveRes.ok p ∧ p.head? = some s ∧
      p.getLast? = some e ∧ List.Chain' (fun a b => b ∈ canVisit m a) p ∧ p.Nodup := by
  apply solveRun_reach_ok hreach (solveFuel m.rows m.cols) (solveInitSt s rng)
    (solveInitSt_inv hs)
  unfold solveMeasure solveFuel solveInitSt
  have h1 : 1 ≤ (cellSeq m.rows m.cols).length := by
    have := List.length_pos.2 (List.ne_nil_of_mem hs)
    omega
  rw [cellSeq_length] at h1 ⊢
  simp only [List.length_singleton]
  have h2 : 2 * m.rows * m.cols = 2 * (m.rows * m.cols) := by ring
  rw [h2]
  omega

/-! ### Generation terminates -/

def RecInv (rows cols : Nat) (st : RecSt) : Prop :=
  st.v.Nodup ∧ ∀ x ∈ st.v, x ∈ cellSeq rows cols

def recMeasure (rows cols : Nat) (st : RecSt) : Nat :=
  st.stack.length + 3 * ((cellSeq rows cols).length - st.v.length)

theorem recStep_empty_halt {rows cols : Nat} {st : RecSt}
    (hemp : (recUnvisited rows cols st).isEmpty = true) (hstk : st.stack.getLast? = none) :
    recStep rows cols st = .halt st := by
  unfold recStep
  rw [if_pos hemp, hstk]

theorem recStep_empty_pop {rows cols : Nat} {st : RecSt} {c : Cell}
    (hemp : (recUnvisited rows cols st).isEmpty = true) (hstk : st.stack.getLast? = some c) :
    recStep rows cols st = .cont { st with cell := c, stack := st.stack.dropLast } := by
  unfold recStep
  rw [if_pos hemp, hstk]

theorem recStep_push_none {rows cols : Nat} {st : RecSt}
    (hemp : ¬ (recUnvisited rows cols st).isEmpty = true)
    (hfind : ((doorsOf rows cols ((recUnvisited rows cols st).getD
          (randBelow st.rng (recUnvisited rows cols st).length).1 (0, 0))).map
          (fun e => e.2)).find?
        (fun dd => decide (dd.c1 = st.cell) || decide (dd.c2 = st.cell)) = none) :
    recStep rows cols st =
      .crash { st with rng := (randBelow st.rng (recUnvisited rows cols st).length).2 } := by
  unfold recStep
  rw [if_neg hemp]
  simp only []
  rw [hfind]

theorem recStep_push_some {rows cols : Nat} {st : RecSt} {d : DoorId}
    (hemp : ¬ (recUnvisited rows cols st).isEmpty = true)
    (hfind : ((doorsOf rows cols ((recUnvisited rows cols st).getD
          (randBelow st.rng (recUnvisited rows cols st).length).1 (0, 0))).map
          (fun e => e.2)).find?
        (fun dd => decide (dd.c1 = st.cell) || decide (dd.c2 = st.cell)) = some d) :
    recStep rows cols st =
      .cont
        { cell := (recUnvisited rows cols st).getD
            (randBelow st.rng (recUnvisited rows cols st).length).1 (0, 0),
          v := setAdd st.v ((recUnvisited rows cols st).getD
            (randBelow st.rng (recUnvisited rows cols st).length).1 (0, 0)),
          stack := st.stack ++ [st.cell],
          closed := Function.update st.closed d false,
          rng := (randBelow st.rng (recUnvisited rows cols st).length).2 } := by
  unfold recStep
  rw [if_neg hemp]
  simp only []
  rw [hfind]

theorem recRun_cont {rows cols f : Nat} {st st1 : RecSt}
    (h : recStep rows cols st = .cont st1) :
    recRun rows cols (f + 1) st = recRun rows cols f st1 := by
  conv_lhs => unfold recRun
  rw [h]

theorem recRun_halt {rows cols f : Nat} {st st1 : RecSt}
    (h : recStep rows cols st = .halt st1) :
    recRun rows cols (f + 1) st = RunRes.ok st1 := by
  conv_lhs => unfold recRun
  rw [h]

theorem recRun_crash {rows cols f : Nat} {st st1 : RecSt}
    (h : recStep rows cols st = .crash st1) :
    recRun rows cols (f + 1) st = RunRes.crash st1 := by
  conv_lhs => unfold recRun
  rw [h]

theorem recRun_no_fuelOut (rows cols : Nat) :
    ∀ (fuel : Nat) (st : RecSt), RecInv rows cols st → recMeasure rows cols st < fuel →
      (recRun rows cols fuel st).isFuelOut = false := by
  intro fuel
  induction fuel with
  | zero =>
      intro st _ hm
      omega
  | succ f ih =>
      intro st hinv hm
      by_cases hemp : (recUnvisited rows cols st).isEmpty = true
      · cases hstk : st.stack.getLast? with
        | none =>
            rw [recRun_halt (recStep_empty_halt hemp hstk)]
            rfl
        | some c =>
            rw [recRun_cont (recStep_empty_pop hemp hstk)]
            refine ih _ ⟨hinv.1, hinv.2⟩ ?_
            have hstkne : st.stack ≠ [] := by
              intro h
              rw [h] at hstk
              cases hstk
            have h1 : 0 < st.stack.length := List.length_pos.2 hstkne
            unfold recMeasure at hm ⊢
            simp only [List.length_dropLast]
            omega
      · cases hfind : ((doorsOf rows cols ((recUnvisited rows cols st).getD
            (randBelow st.rng (recUnvisited rows cols st).length).1 (0, 0))).map
            (fun e => e.2)).find?
            (fun dd => decide (dd.c1 = st.cell) || decide (dd.c2 = st.cell)) with
        | none =>
            rw [recRun_crash (recStep_push_none hemp hfind)]
            rfl
        | some d =>
            rw [recRun_cont (recStep_push_some hemp hfind)]
            have hulen : 0 < (recUnvisited rows cols st).length := by
              cases hu0 : recUnvisited rows cols st with
              | nil =>
                  rw [hu0] at hemp
                  exact absurd rfl hemp
              | cons a t => simp
            have hklt := @randBelow_lt st.rng _ hulen
            have hnu : (recUnvisited rows cols st).getD
                (randBelow st.rng (recUnvisited rows cols st).length).1 (0, 0) ∈
                recUnvisited rows cols st := by
              rw [List.getD_eq_getElem _ _ hklt]
              exact List.getElem_mem _
            generalize hn : (recUnvisited rows cols st).getD
                (randBelow st.rng (recUnvisited rows cols st).length).1 (0, 0) = n at hnu ⊢
            have hncell : n ∈ cellSeq rows cols := by
              unfold recUnvisited at hnu
              exact allNeighbors_subset (List.mem_of_mem_filter hnu)
            have hnv : n ∉ st.v := by
              unfold recUnvisited at hnu
              have := (List.mem_filter.1 hnu).2
              rw [Bool.not_eq_true'] at this
              exact contains_false_iff.1 this
            have hsa : setAdd st.v n = st.v ++ [n] := setAdd_of_not_mem hnv
            rw [hsa]
            have hinv1 : RecInv rows cols
                { cell := n, v := st.v ++ [n], stack := st.stack ++ [st.cell],
                  closed := Function.update st.closed d false,
                  rng := (randBelow st.rng (recUnvisited rows cols st).length).2 } := by
              constructor
              · rw [List.nodup_append]
                refine ⟨hinv.1, List.nodup_singleton n, ?_⟩
                intro a ha ha2
                rw [List.mem_singleton] at ha2
                subst ha2
                exact hnv ha
              · intro x hx
                rw [List.mem_append] at hx
                rcases hx with h1 | h1
                · exact hinv.2 x h1
                · rw [List.mem_singleton] at h1
                  subst h1
                  exact hncell
            apply ih _ hinv1
            have hvL : (st.v ++ [n]).length ≤ (cellSeq rows cols).length :=
              (List.Nodup.subperm hinv1.1 (fun x hx => hinv1.2 x hx)).length_le
            unfold recMeasure at hm ⊢
            simp only [List.length_append, List.length_singleton] at hvL ⊢
            omega

/-- Prim loop invariant: visited cells are distinct grid cells and frontier
walls connect grid cells. -/
def PrimInv (rows cols : Nat) (st : PrimSt) : Prop :=
  st.v.Nodup ∧ (∀ x ∈ st.v, x ∈ cellSeq rows cols) ∧
    ∀ w ∈ st.walls, w.c1 ∈ cellSeq rows cols ∧ w.c2 ∈ cellSeq rows cols

def primMeasure (rows cols : Nat) (st : PrimSt) : Nat :=
  st.walls.length +
    ((gridRegs rows cols).length + 1) * ((cellSeq rows cols).length - st.v.length)

theorem doorsOfSnd_endpoints {rows cols : Nat} {c : Cell} {w : DoorId}
    (h : w ∈ (doorsOf rows cols c).map (fun e => e.2)) :
    w.c1 ∈ cellSeq rows cols ∧ w.c2 ∈ cellSeq rows cols := by
  rw [List.mem_map] at h
  obtain ⟨⟨dir, d⟩, hd, rfl⟩ := h
  have hs := gridRegs_sound (mem_doorsOf.1 hd)
  exact ⟨hs.2.1, hs.2.2.1⟩

theorem primRun_empty {rows cols f : Nat} {st : PrimSt} (h : st.walls.isEmpty = true) :
    primRun rows cols (f + 1) st = RunRes.ok st := by
  conv_lhs => unfold primRun
  rw [if_pos h]

theorem primRun_step {rows cols f : Nat} {st : PrimSt} (h : ¬ st.walls.isEmpty = true) :
    primRun rows cols (f + 1) st = primRun rows cols f (primStep rows cols st) := by
  conv_lhs => unfold primRun
  rw [if_neg h]

theorem primRun_no_fuelOut (rows cols : Nat) :
    ∀ (fuel : Nat) (st : PrimSt), PrimInv rows cols st → primMeasure rows cols st < fuel →
      (primRun rows cols fuel st).isFuelOut = false := by
  intro fuel
  induction fuel with
  | zero =>
      intro st _ hm
      omega
  | succ f ih =>
      intro st hinv hm
      by_cases hwe : st.walls.isEmpty = true
      · rw [primRun_empty hwe]
        rfl
      · rw [primRun_step hwe]
        have hwlen : 0 < st.walls.length := by
          cases hw0 : st.walls with
          | nil =>
              rw [hw0] at hwe
              exact absurd rfl hwe
          | cons a t => simp
        -- facts about the picked wall and remaining frontier
        have hklt : (randBelow st.rng (st.walls.length - 1 + 1)).1 < st.walls.length := by
          have := @randBelow_lt st.rng (st.walls.length - 1 + 1) (by omega)
          omega
        have hwmem : (pickWall st.walls st.rng).1 ∈ st.walls := by
          unfold pickWall
          simp only []
          rw [List.getD_eq_getElem _ _ hklt]
          exact List.getElem_mem _
        have hw1len : (pickWall st.walls st.rng).2.1.length = st.walls.length - 1 := by
          unfold pickWall
          simp only []
          rw [List.length_dropLast, List.length_set]
        have hw1sub : ∀ w ∈ (pickWall st.walls st.rng).2.1, w ∈ st.walls := by
          unfold pickWall
          simp only []
          intro w hw
          have h1 := List.dropLast_subset _ hw
          rcases List.mem_or_eq_of_mem_set h1 with h2 | h2
          · exact h2
          · subst h2
            by_cases hL : st.walls.length - 1 < st.walls.length
            · rw [List.getD_eq_getElem _ _ hL]
              exact List.getElem_mem _
            · omega
        unfold primStep
        simp only []
        by_cases hjoined : (st.v.contains (pickWall st.walls st.rng).1.c1 &&
            st.v.contains (pickWall st.walls st.rng).1.c2) = true
        · rw [if_pos hjoined]
          apply ih
          · exact ⟨hinv.1, hinv.2.1, fun w hw => hinv.2.2 w (hw1sub w hw)⟩
          · unfold primMeasure at hm ⊢
            simp only [hw1len]
            omega
        · rw [if_neg hjoined]
          generalize hw : (pickWall st.walls st.rng).1 = w at hjoined hwmem ⊢
          have hwend := hinv.2.2 w hwmem
          have huv : (if st.v.contains w.c1 = true then w.c2 else w.c1) ∉ st.v ∧
              (if st.v.contains w.c1 = true then w.c2 else w.c1) ∈ cellSeq rows cols := by
            by_cases h1 : st.v.contains w.c1 = true
            · rw [if_pos h1]
              rw [Bool.and_eq_true, not_and] at hjoined
              refine ⟨?_, hwend.2⟩
              intro h2
              exact absurd (contains_true_iff.2 h2) (by
                intro h3
                exact (hjoined h1) h3)
            · rw [if_neg h1]
              refine ⟨?_, hwend.1⟩
              intro h2
              exact h1 (contains_true_iff.2 h2)
          generalize hu : (if st.v.contains w.c1 = true then w.c2 else w.c1) = unv at huv ⊢
          have hsa : setAdd st.v unv = st.v ++ [unv] := setAdd_of_not_mem huv.1
          rw [hsa]
          have hinv1 : PrimInv rows cols
              { walls := (pickWall st.walls st.rng).2.1 ++
                  (doorsOf rows cols unv).map (fun e => e.2),
                v := st.v ++ [unv],
                closed := Function.update st.closed w false,
                rng := (pickWall st.walls st.rng).2.2 } := by
            refine ⟨?_, ?_, ?_⟩
            · rw [List.nodup_append]
              refine ⟨hinv.1, List.nodup_singleton unv, ?_⟩
              intro a ha ha2
              rw [List.mem_singleton] at ha2
              subst ha2
              exact huv.1 ha
            · intro x hx
              rw [List.mem_append] at hx
              rcases hx with h1 | h1
              · exact hinv.2.1 x h1
              · rw [List.mem_singleton] at h1
                subst h1
                exact huv.2
            · intro ww hww
              rw [List.mem_append] at hww
              rcases hww with h1 | h1
              · exact hinv.2.2 ww (hw1sub ww h1)
              · exact doorsOfSnd_endpoints h1
          apply ih _ hinv1
          have hvL : (st.v ++ [unv]).length ≤ (cellSeq rows cols).length :=
            (List.Nodup.subperm hinv1.1 (fun x hx => hinv1.2.1 x hx)).length_le
          have hdoorsLe : ((doorsOf rows cols unv).map (fun e => e.2)).length ≤
              (gridRegs rows cols).length := by
            rw [List.length_map]
            exact List.length_filterMap_le _ _
          unfold primMeasure at hm ⊢
          simp only [List.length_append, List.length_singleton, hw1len] at hvL hm ⊢
          -- expose one factor of the product to make the arithmetic linear
          have hlen1 : 1 ≤ (cellSeq rows cols).length - st.v.length := by omega
          have hfac : ((gridRegs rows cols).length + 1) *
              ((cellSeq rows cols).length - st.v.length) =
              ((gridRegs rows cols).length + 1) *
                ((cellSeq rows cols).length - (st.v.length + 1)) +
                ((gridRegs rows cols).length + 1) := by
            have h2 : (cellSeq rows cols).length - st.v.length =
                ((cellSeq rows cols).length - (st.v.length + 1)) + 1 := by omega
            rw [h2, Nat.mul_succ]
          omega

theorem kruskalRun_no_fuelOut :
    ∀ (fuel : Nat) (ds : List DoorId) (st : KrusSt), ds.length < fuel →
      (kruskalRun fuel ds st).isFuelOut = false := by
  intro fuel
  induction fuel with
  | zero =>
      intro ds st hm
      omega
  | succ f ih =>
      intro ds st hm
      cases ds with
      | nil => rfl
      | cons d t =>
          unfold kruskalRun
          apply ih
          simp only [List.length_cons] at hm
          omega

/-! ### Union-find: semantic roots and well-formedness -/

section UFtheory

variable {α : Type} [DecidableEq α]

def keys (m : List (α × α)) : List α := m.map (fun e => e.1)

def parentD (m : List (α × α)) (p : α) : α := (mfind m p).getD p

def isRoot (m : List (α × α)) (p : α) : Prop := parentD m p = p

def iterPar (m : List (α × α)) : Nat → α → α
  | 0, p => p
  | n + 1, p => if parentD m p = p then p else iterPar m n (parentD m p)

/-- `p` reaches a root of the parent forest within `n` steps. -/
def distLe (m : List (α × α)) (p : α) (n : Nat) : Prop := isRoot m (iterPar m n p)

/-- The semantic root of `p` (stable once the parent chain is rooted). -/
def sroot (m : List (α × α)) (p : α) : α := iterPar m m.length p

/-- Well-formedness of a union-find store built by the program: distinct
keys, every stored parent is itself registered, every chain is rooted. -/
def WFuf (m : List (α × α)) : Prop :=
  (keys m).Nodup ∧ (∀ e ∈ m, e.2 ∈ keys m) ∧ ∀ p, ∃ N, distLe m p N

theorem mfind_eq_none_iff {m : List (α × α)} {p : α} :
    mfind m p = none ↔ p ∉ keys m := by
  unfold mfind keys
  rw [Option.map_eq_none', List.find?_eq_none]
  constructor
  · intro h hp
    rw [List.mem_map] at hp
    obtain ⟨e, he, hk⟩ := hp
    have h2 := h e he
    rw [decide_eq_true_eq] at h2
    exact h2 hk
  · intro h e he
    intro hk
    rw [decide_eq_true_eq] at hk
    exact h (List.mem_map.2 ⟨e, he, hk⟩)

theorem mfind_mem {m : List (α × α)} {p v : α} (h : mfind m p = some v) : (p, v) ∈ m := by
  unfold mfind at h
  rw [Option.map_eq_some'] at h
  obtain ⟨e, he, hv⟩ := h
  have h1 := List.find?_some he
  have h2 := List.mem_of_find?_eq_some he
  rw [decide_eq_true_eq] at h1
  obtain ⟨e1, e2⟩ := e
  cases h1
  cases hv
  exact h2

theorem mhas_iff {m : List (α × α)} {p : α} : mhas m p = true ↔ p ∈ keys m := by
  unfold mhas
  rw [Option.isSome_iff_ne_none]
  constructor
  · intro h
    by_contra hp
    rw [← mfind_eq_none_iff] at hp
    unfold mfind at hp
    rw [Option.map_eq_none'] at hp
    exact h hp
  · intro h hn
    exact absurd h (mfind_eq_none_iff.1 (by unfold mfind; rw [hn]; rfl))

theorem isRoot_of_not_mem {m : List (α × α)} {p : α} (h : p ∉ keys m) : isRoot m p := by
  unfold isRoot parentD
  rw [mfind_eq_none_iff.2 h]
  rfl

theorem parentD_mem_keys {m : List (α × α)} {p : α}
    (hv : ∀ e ∈ m, e.2 ∈ keys m) (h : ¬ isRoot m p) : parentD m p ∈ keys m := by
  cases hf : mfind m p with
  | none => exact absurd (by unfold isRoot parentD; rw [hf]; rfl) h
  | some v =>
      have : parentD m p = v := by
        unfold parentD
        rw [hf]
        rfl
      rw [this]
      exact hv _ (mfind_mem hf)

theorem iterPar_of_isRoot {m : List (α × α)} {p : α} (h : isRoot m p) (n : Nat) :
    iterPar m n p = p := by
  induction n with
  | zero => rfl
  | succ k ih =>
      unfold iterPar
      rw [if_pos (show parentD m p = p from h)]

theorem iterPar_succ_not_root {m : List (α × α)} {p : α} (h : ¬ isRoot m p) (n : Nat) :
    iterPar m (n + 1) p = iterPar m n (parentD m p) := by
  conv_lhs => unfold iterPar
  rw [if_neg (show ¬ parentD m p = p from h)]

theorem iterPar_add (m : List (α × α)) (a b : Nat) (q : α) :
    iterPar m (a + b) q = iterPar m b (iterPar m a q) := by
  induction a generalizing q with
  | zero =>
      rw [Nat.zero_add]
      rfl
  | succ k ih =>
      by_cases h : isRoot m q
      · rw [iterPar_of_isRoot h, iterPar_of_isRoot h, iterPar_of_isRoot h]
      · have h1 : k + 1 + b = (k + b) + 1 := by omega
        rw [h1, iterPar_succ_not_root h, iterPar_succ_not_root h, ih]

theorem distLe_stable {m : List (α × α)} {q : α} {n k : Nat} (h : distLe m q n)
    (hk : n ≤ k) : distLe m q k ∧ iterPar m k q = iterPar m n q := by
  have h1 : iterPar m k q = iterPar m n q := by
    have h2 : k = n + (k - n) := by omega
    rw [h2, iterPar_add,
      iterPar_of_isRoot (show isRoot m (iterPar m n q) from h)]
  refine ⟨?_, h1⟩
  unfold distLe
  rw [h1]
  exact h

theorem distLe_zero_iff {m : List (α × α)} {q : α} : distLe m q 0 ↔ isRoot m q :=
  Iff.rfl

theorem distLe_succ_not_root {m : List (α × α)} {q : α} {n : Nat} (h : ¬ isRoot m q) :
    distLe m q (n + 1) ↔ distLe m (parentD m q) n := by
  unfold distLe
  rw [iterPar_succ_not_root h]

/-- Any rooted chain reaches its root within `|m|` steps: the pre-root
iterates are pairwise distinct registered keys. -/
theorem distLe_len {m : List (α × α)} {q : α} {N : Nat} (h : distLe m q N) :
    distLe m q m.length := by
  have hex : ∃ n, isRoot m (iterPar m n q) := ⟨N, h⟩
  classical
  have hdec : ∀ n, Decidable (isRoot m (iterPar m n q)) := fun n => by
    unfold isRoot
    infer_instance
  set d := Nat.find hex with hd
  have hroot : isRoot m (iterPar m d q) := Nat.find_spec hex
  have hmin : ∀ i, i < d → ¬ isRoot m (iterPar m i q) := fun i hi => Nat.find_min hex hi
  by_cases hdl : d ≤ m.length
  · exact (distLe_stable hroot hdl).1
  · exfalso
    have hinj : ∀ i j, i < j → j ≤ d → iterPar m i q ≠ iterPar m j q := by
      intro i j hij hjd heq
      have : iterPar m d q = iterPar m (i + (d - j)) q := by
        have h1 : d = j + (d - j) := by omega
        rw [iterPar_add, heq, ← iterPar_add, ← h1]
      have hlt : i + (d - j) < d := by omega
      exact hmin _ hlt (by rw [← this]; exact hroot)
    have hmemk : ∀ i, i < d → iterPar m i q ∈ keys m := by
      intro i hi
      by_contra hk
      exact hmin i hi (isRoot_of_not_mem hk)
    have hnodup : ((List.range (m.length + 1)).map (fun i => iterPar m i q)).Nodup := by
      rw [List.nodup_map_iff_inj_on (List.nodup_range _)]
      intro i hi j hj hij
      rcases Nat.lt_trichotomy i j with h1 | h1 | h1
      · exact absurd hij (hinj i j h1 (by
          rw [List.mem_range] at hj
          omega))
      · exact h1
      · exact absurd hij.symm (hinj j i h1 (by
          rw [List.mem_range] at hi
          omega))
    have hsubk : ∀ x ∈ (List.range (m.length + 1)).map (fun i => iterPar m i q),
        x ∈ keys m := by
      intro x hx
      rw [List.mem_map] at hx
      obtain ⟨i, hi, rfl⟩ := hx
      rw [List.mem_range] at hi
      exact hmemk i (by omega)
    have hlen := (List.Nodup.subperm hnodup hsubk).length_le
    rw [List.length_map, List.length_range] at hlen
    unfold keys at hlen
    rw [List.length_map] at hlen
    omega

theorem sroot_eq_iterPar {m : List (α × α)} {q : α} {N : Nat} (h : distLe m q N) :
    sroot m q = iterPar m N q := by
  unfold sroot
  have hl := distLe_len h
  rcases Nat.le_total N m.length with h1 | h1
  · exact (distLe_stable h h1).2
  · exact ((distLe_stable hl h1).2).symm

theorem sroot_isRoot {m : List (α × α)} {q : α} {N : Nat} (h : distLe m q N) :
    isRoot m (sroot m q) := by
  rw [sroot_eq_iterPar h]
  exact (distLe_stable h (Nat.le_refl N)).1

theorem sroot_of_isRoot {m : List (α × α)} {q : α} (h : isRoot m q) : sroot m q = q :=
  iterPar_of_isRoot h _

theorem sroot_parentD {m : List (α × α)} {q : α} {N : Nat} (h : distLe m q N) :
    sroot m (parentD m q) = sroot m q := by
  by_cases hr : isRoot m q
  · rw [hr]
  · have hN : N ≠ 0 := by
      intro h0
      rw [h0] at h
      exact hr h
    obtain ⟨N1, rfl⟩ : ∃ N1, N = N1 + 1 := ⟨N - 1, by omega⟩
    have hpar : distLe m (parentD m q) N1 := (distLe_succ_not_root hr).1 h
    rw [sroot_eq_iterPar hpar, sroot_eq_iterPar h, iterPar_succ_not_root hr]

theorem sroot_mem_keys {m : List (α × α)} (hv : ∀ e ∈ m, e.2 ∈ keys m) {q : α} {N : Nat}
    (h : distLe m q N) (hq : q ∈ keys m) : sroot m q ∈ keys m := by
  rw [sroot_eq_iterPar h]
  clear h
  induction N generalizing q with
  | zero => exact hq
  | succ k ih =>
      by_cases hr : isRoot m q
      · rw [iterPar_of_isRoot hr]
        exact hq
      · rw [iterPar_succ_not_root hr]
        exact ih (parentD_mem_keys hv hr)

theorem mfind_mset_self (m : List (α × α)) (k v : α) : mfind (mset m k v) k = some v := by
  unfold mset
  by_cases h : mhas m k = true
  · rw [if_pos h]
    have hk : k ∈ keys m := mhas_iff.1 h
    clear h
    induction m with
    | nil =>
        unfold keys at hk
        simp at hk
    | cons e t ih =>
        rw [List.map_cons]
        by_cases hek : e.1 = k
        · rw [if_pos hek]
          unfold mfind
          rw [List.find?_cons_of_pos _ (by simp)]
          rfl
        · rw [if_neg hek]
          unfold mfind
          rw [List.find?_cons_of_neg _ (by simpa using hek)]
          have hk2 : k ∈ keys t := by
            unfold keys at hk ⊢
            rw [List.map_cons, List.mem_cons] at hk
            rcases hk with h1 | h1
            · exact absurd h1.symm hek
            · exact h1
          exact ih hk2
  · rw [if_neg h]
    have hk : k ∉ keys m := fun hc => h (mhas_iff.2 hc)
    unfold mfind
    rw [List.find?_append]
    have h1 : List.find? (fun e => decide (e.1 = k)) m = none := by
      have := mfind_eq_none_iff.2 hk
      unfold mfind at this
      rwa [Option.map_eq_none'] at this
    rw [h1]
    simp

theorem mfind_mset_other (m : List (α × α)) {q k : α} (v : α) (h : q ≠ k) :
    mfind (mset m k v) q = mfind m q := by
  unfold mset
  by_cases hh : mhas m k = true
  · rw [if_pos hh]
    clear hh
    induction m with
    | nil => rfl
    | cons e t ih =>
        rw [List.map_cons]
        by_cases heq : e.1 = q
        · have hek : ¬ e.1 = k := by
            rw [heq]
            exact fun hc => h hc
          rw [if_neg hek]
          unfold mfind
          rw [List.find?_cons_of_pos _ (by simpa using heq),
            List.find?_cons_of_pos _ (by simpa using heq)]
        · by_cases hek : e.1 = k
          · rw [if_pos hek]
            unfold mfind
            rw [List.find?_cons_of_neg _ (by simpa using fun hc => h hc.symm),
              List.find?_cons_of_neg _ (by simpa using heq)]
            exact ih
          · rw [if_neg hek]
            unfold mfind
            rw [List.find?_cons_of_neg _ (by simpa using heq),
              List.find?_cons_of_neg _ (by simpa using heq)]
            exact ih
  · rw [if_neg hh]
    unfold mfind
    rw [List.find?_append]
    cases hf : List.find? (fun e => decide (e.1 = q)) m with
    | some e => rfl
    | none =>
        rw [Option.none_or]
        rw [List.find?_cons_of_neg _ (by simpa using fun hc => h hc.symm),
          List.find?_nil]

theorem keys_mset_of_mem {m : List (α × α)} {k : α} (v : α) (h : mhas m k = true) :
    keys (mset m k v) = keys m ∧ (mset m k v).length = m.length := by
  unfold mset
  rw [if_pos h]
  constructor
  · unfold keys
    rw [List.map_map]
    apply List.map_congr_left
    intro e _
    by_cases hek : e.1 = k
    · simp only [Function.comp_apply]
      rw [if_pos hek, hek]
    · simp only [Function.comp_apply]
      rw [if_neg hek]
  · rw [List.length_map]

theorem keys_mset_of_not_mem {m : List (α × α)} {k : α} (v : α) (h : ¬ mhas m k = true) :
    keys (mset m k v) = keys m ++ [k] := by
  unfold mset
  rw [if_neg h]
  unfold keys
  rw [List.map_append]
  rfl

theorem parentD_mset_self {m : List (α × α)} (k v : α) : parentD (mset m k v) k = v := by
  unfold parentD
  rw [mfind_mset_self]
  rfl

theorem parentD_mset_other {m : List (α × α)} {q k : α} (v : α) (h : q ≠ k) :
    parentD (mset m k v) q = parentD m q := by
  unfold parentD
  rw [mfind_mset_other m v h]

theorem iterPar_ext {m m2 : List (α × α)} (h : ∀ q, parentD m2 q = parentD m q) :
    ∀ (n : Nat) (q : α), iterPar m2 n q = iterPar m n q := by
  intro n
  induction n with
  | zero =>
      intro q
      rfl
  | succ k ih =>
      intro q
      by_cases hr : isRoot m q
      · have hr2 : isRoot m2 q := by
          unfold isRoot
          rw [h q]
          exact hr
        rw [iterPar_of_isRoot hr2, iterPar_of_isRoot hr]
      · have hr2 : ¬ isRoot m2 q := by
          unfold isRoot
          rw [h q]
          exact hr
        rw [iterPar_succ_not_root hr2, iterPar_succ_not_root hr, h q, ih]

/-- Lazy registration of an unseen node changes no parent. -/
theorem parentD_reg {m : List (α × α)} {p : α} (h : ¬ mhas m p = true) :
    ∀ q, parentD (mset m p p) q = parentD m q := by
  intro q
  by_cases hq : q = p
  · subst hq
    rw [parentD_mset_self]
    unfold parentD
    rw [mfind_eq_none_iff.2 (fun hc => h (mhas_iff.2 hc))]
    rfl
  · exact parentD_mset_other p hq

theorem reg_spec {m : List (α × α)} {p : α} (hWF : WFuf m) (h : ¬ mhas m p = true) :
    WFuf (mset m p p) ∧ (∀ q, sroot (mset m p p) q = sroot m q) ∧
      keys (mset m p p) = keys m ++ [p] ∧
      ∀ q N, distLe m q N → distLe (mset m p p) q N := by
  have hpar := parentD_reg h
  have hiter := iterPar_ext hpar
  have hdist : ∀ q N, distLe m q N → distLe (mset m p p) q N := by
    intro q N hqN
    unfold distLe isRoot
    rw [hiter, hpar]
    exact hqN
  have hkeys : keys (mset m p p) = keys m ++ [p] := keys_mset_of_not_mem p h
  have hsr : ∀ q, sroot (mset m p p) q = sroot m q := by
    intro q
    obtain ⟨N, hN⟩ := hWF.2.2 q
    have h1 : sroot (mset m p p) q = iterPar (mset m p p) N q :=
      sroot_eq_iterPar (hdist q N hN)
    rw [h1, hiter, ← sroot_eq_iterPar hN]
  refine ⟨⟨?_, ?_, ?_⟩, hsr, hkeys, hdist⟩
  · rw [hkeys, List.nodup_append]
    refine ⟨hWF.1, List.nodup_singleton p, ?_⟩
    intro a ha ha2
    rw [List.mem_singleton] at ha2
    subst ha2
    exact (fun hc => h (mhas_iff.2 hc)) ha
  · intro e he
    rw [hkeys]
    unfold mset at he
    rw [if_neg h] at he
    rw [List.mem_append] at he
    rcases he with h1 | h1
    · exact List.mem_append_left _ (hWF.2.1 e h1)
    · rw [List.mem_singleton] at h1
      subst h1
      exact List.mem_append_right _ (List.mem_singleton_self p)
  · intro q
    obtain ⟨N, hN⟩ := hWF.2.2 q
    exact ⟨N, hdist q N hN⟩

/-- One path-halving write (`m.set(p, ppar)`) preserves well-formedness,
every semantic root, the key set, the store size, and every distance
bound. -/
theorem halve_spec {m : List (α × α)} {p par ppar : α} (hWF : WFuf m)
    (hfp : mfind m p = some par) (hne : par ≠ p) (hfpar : mfind m par = some ppar) :
    WFuf (mset m p ppar) ∧ (∀ q, sroot (mset m p ppar) q = sroot m q) ∧
      keys (mset m p ppar) = keys m ∧ (mset m p ppar).length = m.length ∧
      ∀ q N, distLe m q N → distLe (mset m p ppar) q N := by
  have hpk : p ∈ keys m := List.mem_map.2 ⟨(p, par), mfind_mem hfp, rfl⟩
  have hmhas : mhas m p = true := mhas_iff.2 hpk
  have hpp : parentD m p = par := by
    unfold parentD
    rw [hfp]
    rfl
  have hppr : parentD m par = ppar := by
    unfold parentD
    rw [hfpar]
    rfl
  have hnrp : ¬ isRoot m p := by
    unfold isRoot
    rw [hpp]
    exact hne
  have hppar_ne_p : ppar ≠ p := by
    intro heq
    have hnrpar : ¬ isRoot m par := by
      unfold isRoot
      rw [hppr, heq]
      exact fun hc => hne hc.symm
    have halt : ∀ k, (iterPar m k p = p ∨ iterPar m k p = par) ∧
        (iterPar m k par = p ∨ iterPar m k par = par) := by
      intro k
      induction k with
      | zero => exact ⟨Or.inl rfl, Or.inr rfl⟩
      | succ j ihj =>
          constructor
          · rw [iterPar_succ_not_root hnrp, hpp]
            exact ihj.2
          · rw [iterPar_succ_not_root hnrpar, hppr, heq]
            exact ihj.1
    obtain ⟨N, hN⟩ := hWF.2.2 p
    unfold distLe at hN
    rcases (halt N).1 with h1 | h1 <;> rw [h1] at hN
    · exact hnrp hN
    · exact hnrpar hN
  have hroot2 : ∀ r, isRoot m r → isRoot (mset m p ppar) r := by
    intro r hr
    have hrp : r ≠ p := by
      intro he
      subst he
      exact hnrp hr
    unfold isRoot
    rw [parentD_mset_other ppar hrp]
    exact hr
  have hnr2p : ¬ isRoot (mset m p ppar) p := by
    unfold isRoot
    rw [parentD_mset_self]
    exact hppar_ne_p
  have hsp : sroot m par = sroot m p := by
    obtain ⟨N, hN⟩ := hWF.2.2 p
    have := sroot_parentD hN
    rwa [hpp] at this
  have hsppar : sroot m ppar = sroot m par := by
    obtain ⟨N, hN⟩ := hWF.2.2 par
    have := sroot_parentD hN
    rwa [hppr] at this
  -- the main induction over the distance bound
  have hP : ∀ n q, distLe m q n →
      distLe (mset m p ppar) q n ∧ iterPar (mset m p ppar) n q = sroot m q := by
    intro n
    induction n using Nat.strong_induction_on with
    | _ n ihn =>
        intro q h
        by_cases hqr : isRoot m q
        · have hq2 : isRoot (mset m p ppar) q := hroot2 q hqr
          refine ⟨?_, ?_⟩
          · unfold distLe
            rw [iterPar_of_isRoot hq2]
            exact hq2
          · rw [iterPar_of_isRoot hq2, sroot_of_isRoot hqr]
        · have hn0 : n ≠ 0 := by
            intro h0
            rw [h0] at h
            exact hqr h
          obtain ⟨n1, rfl⟩ : ∃ n1, n = n1 + 1 := ⟨n - 1, by omega⟩
          by_cases hqp : p = q
          · subst hqp
            have hdpar : distLe m par n1 := by
              have := (distLe_succ_not_root hnrp).1 h
              rwa [hpp] at this
            by_cases hparroot : isRoot m par
            · have hpparpar : ppar = par := by
                rw [← hppr]
                exact hparroot
              have hr2 : isRoot (mset m p ppar) par := hroot2 par hparroot
              have hr2b : isRoot (mset m p ppar) ppar := by
                have h3 := hr2
                rw [← hpparpar] at h3
                exact h3
              have hiter : iterPar (mset m p ppar) (n1 + 1) p = par := by
                rw [iterPar_succ_not_root hnr2p, parentD_mset_self,
                  iterPar_of_isRoot hr2b]
                exact hpparpar
              refine ⟨?_, ?_⟩
              · unfold distLe
                rw [hiter]
                exact hr2
              · rw [hiter, ← hsp, sroot_of_isRoot hparroot]
            · have hn1 : n1 ≠ 0 := by
                intro h0
                rw [h0] at hdpar
                exact hparroot hdpar
              obtain ⟨n2, rfl⟩ : ∃ n2, n1 = n2 + 1 := ⟨n1 - 1, by omega⟩
              have hdppar : distLe m ppar n2 := by
                have := (distLe_succ_not_root hparroot).1 hdpar
                rwa [hppr] at this
              obtain ⟨hd2, hi2⟩ := ihn n2 (by omega) ppar hdppar
              have hiter : iterPar (mset m p ppar) (n2 + 1 + 1) p = sroot m p := by
                rw [iterPar_succ_not_root hnr2p, parentD_mset_self,
                  (distLe_stable hd2 (by omega)).2, hi2, hsppar, hsp]
              refine ⟨?_, ?_⟩
              · unfold distLe
                rw [hiter]
                exact hroot2 _ (by
                  rw [← hsp, ← hsppar]
                  exact sroot_isRoot hdppar)
              · exact hiter
          · have hqp2 : q ≠ p := fun hc => hqp hc.symm
            have hq2nr : ¬ isRoot (mset m p ppar) q := by
              unfold isRoot
              rw [parentD_mset_other ppar hqp2]
              exact hqr
            have hdq : distLe m (parentD m q) n1 := (distLe_succ_not_root hqr).1 h
            obtain ⟨hd2, hi2⟩ := ihn n1 (by omega) (parentD m q) hdq
            have hiter : iterPar (mset m p ppar) (n1 + 1) q = sroot m q := by
              rw [iterPar_succ_not_root hq2nr, parentD_mset_other ppar hqp2, hi2,
                sroot_parentD h]
            refine ⟨?_, ?_⟩
            · unfold distLe
              rw [hiter]
              exact hroot2 _ (sroot_isRoot h)
            · exact hiter
  have hkeys := keys_mset_of_mem ppar hmhas
  have hpparK : ppar ∈ keys m := hWF.2.1 _ (mfind_mem hfpar)
  have hsr : ∀ q, sroot (mset m p ppar) q = sroot m q := by
    intro q
    obtain ⟨N, hN⟩ := hWF.2.2 q
    obtain ⟨hd2, hi2⟩ := hP N q hN
    rw [sroot_eq_iterPar hd2, hi2]
  refine ⟨⟨?_, ?_, ?_⟩, hsr, hkeys.1, hkeys.2, fun q N hqN => (hP N q hqN).1⟩
  · rw [hkeys.1]
    exact hWF.1
  · intro e he
    rw [hkeys.1]
    unfold mset at he
    rw [if_pos hmhas] at he
    rw [List.mem_map] at he
    obtain ⟨e0, he0, rfl⟩ := he
    by_cases h0 : e0.1 = p
    · rw [if_pos h0]
      exact hpparK
    · rw [if_neg h0]
      exact hWF.2.1 e0 he0
  · intro q
    obtain ⟨N, hN⟩ := hWF.2.2 q
    exact ⟨N, (hP N q hN).1⟩

/-- Linking two distinct registered roots (`m.set(rp, rq)`) preserves
well-formedness and collapses exactly the class of `rp` into that of
`rq`. -/
theorem link_spec {m : List (α × α)} {rp rq : α} (hWF : WFuf m) (hrp : isRoot m rp)
    (hrq : isRoot m rq) (hne : rp ≠ rq) (hrpk : rp ∈ keys m) (hrqk : rq ∈ keys m) :
    WFuf (mset m rp rq) ∧
      (∀ x, sroot (mset m rp rq) x = if sroot m x = rp then rq else sroot m x) ∧
      keys (mset m rp rq) = keys m ∧ (mset m rp rq).length = m.length := by
  have hmhas : mhas m rp = true := mhas_iff.2 hrpk
  have hnr2rp : ¬ isRoot (mset m rp rq) rp := by
    unfold isRoot
    rw [parentD_mset_self]
    exact fun hc => hne hc.symm
  have hroot2 : ∀ r, isRoot m r → r ≠ rp → isRoot (mset m rp rq) r := by
    intro r hr hrne
    unfold isRoot
    rw [parentD_mset_other rq hrne]
    exact hr
  have hr2rq : isRoot (mset m rp rq) rq := hroot2 rq hrq (fun hc => hne hc.symm)
  have hP : ∀ n x, distLe m x n → distLe (mset m rp rq) x (n + 1) ∧
      iterPar (mset m rp rq) (n + 1) x = (if sroot m x = rp then rq else sroot m x) := by
    intro n
    induction n with
    | zero =>
        intro x h
        have hxr : isRoot m x := h
        rw [sroot_of_isRoot hxr]
        by_cases hxp : rp = x
        · subst hxp
          rw [if_pos rfl]
          have hiter : iterPar (mset m rp rq) (0 + 1) rp = rq := by
            rw [iterPar_succ_not_root hnr2rp, parentD_mset_self]
            rfl
          refine ⟨?_, hiter⟩
          unfold distLe
          rw [hiter]
          exact hr2rq
        · have hxp2 : x ≠ rp := fun hc => hxp hc.symm
          rw [if_neg hxp2]
          have hx2 : isRoot (mset m rp rq) x := hroot2 x hxr hxp2
          have hiter : iterPar (mset m rp rq) (0 + 1) x = x := iterPar_of_isRoot hx2 _
          refine ⟨?_, hiter⟩
          unfold distLe
          rw [hiter]
          exact hx2
    | succ n1 ih =>
        intro x h
        by_cases hxr : isRoot m x
        · rw [sroot_of_isRoot hxr]
          by_cases hxp : rp = x
          · subst hxp
            rw [if_pos rfl]
            have hiter : iterPar (mset m rp rq) (n1 + 1 + 1) rp = rq := by
              rw [iterPar_succ_not_root hnr2rp, parentD_mset_self,
                iterPar_of_isRoot hr2rq]
            refine ⟨?_, hiter⟩
            unfold distLe
            rw [hiter]
            exact hr2rq
          · have hxp2 : x ≠ rp := fun hc => hxp hc.symm
            rw [if_neg hxp2]
            have hx2 : isRoot (mset m rp rq) x := hroot2 x hxr hxp2
            have hiter : iterPar (mset m rp rq) (n1 + 1 + 1) x = x :=
              iterPar_of_isRoot hx2 _
            refine ⟨?_, hiter⟩
            unfold distLe
            rw [hiter]
            exact hx2
        · have hxp : x ≠ rp := by
            intro he
            subst he
            exact hxr hrp
          have hx2nr : ¬ isRoot (mset m rp rq) x := by
            unfold isRoot
            rw [parentD_mset_other rq hxp]
            exact hxr
          have hdpx : distLe m (parentD m x) n1 := (distLe_succ_not_root hxr).1 h
          obtain ⟨hd2, hi2⟩ := ih (parentD m x) hdpx
          have hiter : iterPar (mset m rp rq) (n1 + 1 + 1) x =
              (if sroot m x = rp then rq else sroot m x) := by
            rw [iterPar_succ_not_root hx2nr, parentD_mset_other rq hxp, hi2,
              sroot_parentD h]
          refine ⟨?_, hiter⟩
          unfold distLe
          rw [hiter]
          by_cases hsx : sroot m x = rp
          · rw [if_pos hsx]
            exact hr2rq
          · rw [if_neg hsx]
            exact hroot2 _ (sroot_isRoot h) hsx
  have hkeys := keys_mset_of_mem rq hmhas
  have hsr : ∀ x, sroot (mset m rp rq) x = (if sroot m x = rp then rq else sroot m x) := by
    intro x
    obtain ⟨N, hN⟩ := hWF.2.2 x
    obtain ⟨hd2, hi2⟩ := hP N x hN
    rw [sroot_eq_iterPar hd2, hi2]
  refine ⟨⟨?_, ?_, ?_⟩, hsr, hkeys.1, hkeys.2⟩
  · rw [hkeys.1]
    exact hWF.1
  · intro e he
    rw [hkeys.1]
    unfold mset at he
    rw [if_pos hmhas] at he
    rw [List.mem_map] at he
    obtain ⟨e0, he0, rfl⟩ := he
    by_cases h0 : e0.1 = rp
    · rw [if_pos h0]
      exact hrqk
    · rw [if_neg h0]
      exact hWF.2.1 e0 he0
  · intro x
    obtain ⟨N, hN⟩ := hWF.2.2 x
    exact ⟨N + 1, (hP N x hN).1⟩

theorem rootGo_unfold {f : Nat} {m : List (α × α)} {p par : α}
    (h : mfind m p = some par) :
    rootGo (f + 1) m p =
      (if par = p then (p, m)
        else
          match mfind m par with
          | none => (p, m)
          | some ppar => rootGo f (mset m p ppar) ppar) := by
  conv_lhs => unfold rootGo
  rw [h]

theorem rootGo_none {f : Nat} {m : List (α × α)} {p : α} (h : mfind m p = none) :
    rootGo (f + 1) m p = (p, m) := by
  conv_lhs => unfold rootGo
  rw [h]

theorem rootGo_some_self {f : Nat} {m : List (α × α)} {p par : α}
    (h : mfind m p = some par) (he : par = p) : rootGo (f + 1) m p = (p, m) := by
  rw [rootGo_unfold h, if_pos he]

theorem rootGo_some_none {f : Nat} {m : List (α × α)} {p par : α}
    (h : mfind m p = some par) (he : ¬ par = p) (h2 : mfind m par = none) :
    rootGo (f + 1) m p = (p, m) := by
  rw [rootGo_unfold h, if_neg he, h2]

theorem rootGo_step {f : Nat} {m : List (α × α)} {p par ppar : α}
    (h : mfind m p = some par) (he : ¬ par = p) (h2 : mfind m par = some ppar) :
    rootGo (f + 1) m p = rootGo f (mset m p ppar) ppar := by
  rw [rootGo_unfold h, if_neg he, h2]

/-- The path-halving loop returns the semantic root without changing any
class, key or size, and keeps the store well-formed. -/
theorem rootGo_spec :
    ∀ (fuel : Nat) (m : List (α × α)) (p : α) (n : Nat), WFuf m → distLe m p n →
      n < fuel →
      (rootGo fuel m p).1 = sroot m p ∧ WFuf (rootGo fuel m p).2 ∧
        (∀ q, sroot (rootGo fuel m p).2 q = sroot m q) ∧
        keys (rootGo fuel m p).2 = keys m ∧ (rootGo fuel m p).2.length = m.length := by
  intro fuel
  induction fuel with
  | zero =>
      intro m p n _ _ hn
      omega
  | succ f ih =>
      intro m p n hWF hd hn
      cases hfp : mfind m p with
      | none =>
          have hroot : isRoot m p := by
            unfold isRoot parentD
            rw [hfp]
            rfl
          rw [rootGo_none hfp]
          exact ⟨(sroot_of_isRoot hroot).symm, hWF, fun q => rfl, rfl, rfl⟩
      | some par =>
          by_cases hpe : par = p
          · have hroot : isRoot m p := by
              unfold isRoot parentD
              rw [hfp, hpe]
              rfl
            rw [rootGo_some_self hfp hpe]
            exact ⟨(sroot_of_isRoot hroot).symm, hWF, fun q => rfl, rfl, rfl⟩
          · have hpp : parentD m p = par := by
              unfold parentD
              rw [hfp]
              rfl
            have hparK : par ∈ keys m := hWF.2.1 _ (mfind_mem hfp)
            cases hfpar : mfind m par with
            | none => exact absurd hparK (mfind_eq_none_iff.1 hfpar)
            | some ppar =>
                rw [rootGo_step hfp hpe hfpar]
                have hhalve := halve_spec hWF hfp hpe hfpar
                have hppr : parentD m par = ppar := by
                  unfold parentD
                  rw [hfpar]
                  rfl
                have hnrp : ¬ isRoot m p := by
                  unfold isRoot
                  rw [hpp]
                  exact hpe
                have hn0 : n ≠ 0 := by
                  intro h0
                  rw [h0] at hd
                  exact hnrp hd
                obtain ⟨n1, rfl⟩ : ∃ n1, n = n1 + 1 := ⟨n - 1, by omega⟩
                have hdpar : distLe m par n1 := by
                  have := (distLe_succ_not_root hnrp).1 hd
                  rwa [hpp] at this
                have hsp : sroot m par = sroot m p := by
                  have := sroot_parentD hd
                  rwa [hpp] at this
                have hsppar : sroot m ppar = sroot m par := by
                  have := sroot_parentD hdpar
                  rwa [hppr] at this
                have hrec : ∃ n2, distLe (mset m p ppar) ppar n2 ∧ n2 < f := by
                  by_cases hparroot : isRoot m par
                  · have hpparpar : ppar = par := by
                      rw [← hppr]
                      exact hparroot
                    refine ⟨0, ?_, by omega⟩
                    apply hhalve.2.2.2.2
                    rw [hpparpar]
                    exact hparroot
                  · have hn1 : n1 ≠ 0 := by
                      intro h0
                      rw [h0] at hdpar
                      exact hparroot hdpar
                    refine ⟨n1 - 1, ?_, by omega⟩
                    apply hhalve.2.2.2.2
                    obtain ⟨n2, rfl⟩ : ∃ n2, n1 = n2 + 1 := ⟨n1 - 1, by omega⟩
                    have := (distLe_succ_not_root hparroot).1 hdpar
                    rw [hppr] at this
                    simpa using this
                obtain ⟨n2, hd2, hn2⟩ := hrec
                obtain ⟨hr1, hr2, hr3, hr4, hr5⟩ :=
                  ih (mset m p ppar) ppar n2 hhalve.1 hd2 hn2
                refine ⟨?_, hr2, ?_, ?_, ?_⟩
                · rw [hr1, hhalve.2.1, hsppar, hsp]
                · intro q
                  rw [hr3, hhalve.2.1]
                · rw [hr4, hhalve.2.2.1]
                · rw [hr5, hhalve.2.2.2.1]

theorem UF.root_spec {uf : UF α} (hWF : WFuf uf.m) (p : α) :
    (uf.root p).1 = sroot uf.m p ∧ WFuf (uf.root p).2.m ∧
      (∀ q, sroot (uf.root p).2.m q = sroot uf.m q) ∧
      keys (uf.root p).2.m =
        (if mhas uf.m p = true then keys uf.m else keys uf.m ++ [p]) ∧
      p ∈ keys (uf.root p).2.m := by
  unfold UF.root
  by_cases hh : mhas uf.m p = true
  · rw [if_pos hh]
    simp only []
    obtain ⟨N, hN⟩ := hWF.2.2 p
    have hlen := distLe_len hN
    obtain ⟨h1, h2, h3, h4, h5⟩ :=
      rootGo_spec (uf.m.length + 1) uf.m p uf.m.length hWF hlen (by omega)
    rw [if_pos hh]
    exact ⟨h1, h2, h3, h4, by
      rw [h4]
      exact mhas_iff.1 hh⟩
  · rw [if_neg hh]
    simp only []
    obtain ⟨hWF0, hsr0, hkeys0, hdist0⟩ := reg_spec hWF hh
    obtain ⟨N, hN⟩ := hWF0.2.2 p
    have hlen := distLe_len hN
    obtain ⟨h1, h2, h3, h4, h5⟩ :=
      rootGo_spec ((mset uf.m p p).length + 1) (mset uf.m p p) p
        (mset uf.m p p).length hWF0 hlen (by omega)
    rw [if_neg hh]
    refine ⟨by rw [h1, hsr0], h2, ?_, by rw [h4, hkeys0], ?_⟩
    · intro q
      rw [h3, hsr0]
    · rw [h4, hkeys0]
      exact List.mem_append_right _ (List.mem_singleton_self p)

theorem UF.join_spec {uf : UF α} (hWF : WFuf uf.m) (p q : α) :
    WFuf (uf.join p q).m ∧
      (∀ x, sroot (uf.join p q).m x =
        if sroot uf.m x = sroot uf.m p then sroot uf.m q else sroot uf.m x) ∧
      (p ∈ keys uf.m → q ∈ keys uf.m → keys (uf.join p q).m = keys uf.m) := by
  obtain ⟨hr1, hw1, hs1, hk1, hm1⟩ := UF.root_spec hWF p
  obtain ⟨hr2, hw2, hs2, hk2, hm2⟩ := UF.root_spec hw1 q
  have hrq : ((uf.root p).2.root q).1 = sroot uf.m q := by
    rw [hr2, hs1]
  have hkeys2 : p ∈ keys uf.m → q ∈ keys uf.m →
      keys ((uf.root p).2.root q).2.m = keys uf.m := by
    intro hpK hqK
    rw [hk2, hk1]
    rw [if_pos (mhas_iff.2 hpK), if_pos (by
      rw [mhas_iff, hk1, if_pos (mhas_iff.2 hpK)]
      exact hqK)]
  unfold UF.join
  simp only []
  by_cases heq0 : (uf.root p).1 = ((uf.root p).2.root q).1
  · rw [if_pos heq0]
    have heq : sroot uf.m p = sroot uf.m q := by
      rw [← hr1, ← hrq]
      exact heq0
    refine ⟨hw2, ?_, hkeys2⟩
    intro x
    rw [hs2, hs1]
    by_cases hx : sroot uf.m x = sroot uf.m p
    · rw [if_pos hx, hx, heq]
    · rw [if_neg hx]
  · rw [if_neg heq0]
    have heq : ¬ sroot uf.m p = sroot uf.m q := by
      rw [← hr1, ← hrq]
      exact heq0
    rw [hr1, hrq]
    have hsp2 : sroot ((uf.root p).2.root q).2.m p = sroot uf.m p := by
      rw [hs2, hs1]
    have hsq2 : sroot ((uf.root p).2.root q).2.m q = sroot uf.m q := by
      rw [hs2, hs1]
    have hrootp : isRoot ((uf.root p).2.root q).2.m (sroot uf.m p) := by
      obtain ⟨N, hN⟩ := hw2.2.2 p
      have := sroot_isRoot hN
      rwa [hsp2] at this
    have hrootq : isRoot ((uf.root p).2.root q).2.m (sroot uf.m q) := by
      obtain ⟨N, hN⟩ := hw2.2.2 q
      have := sroot_isRoot hN
      rwa [hsq2] at this
    have hpK2 : p ∈ keys ((uf.root p).2.root q).2.m := by
      rw [hk2]
      by_cases hq2 : mhas (uf.root p).2.m q = true
      · rw [if_pos hq2]
        exact hm1
      · rw [if_neg hq2]
        exact List.mem_append_left _ hm1
    have hqK2 : q ∈ keys ((uf.root p).2.root q).2.m := hm2
    have hspK : sroot uf.m p ∈ keys ((uf.root p).2.root q).2.m := by
      obtain ⟨N, hN⟩ := hw2.2.2 p
      have := sroot_mem_keys hw2.2.1 hN hpK2
      rwa [hsp2] at this
    have hsqK : sroot uf.m q ∈ keys ((uf.root p).2.root q).2.m := by
      obtain ⟨N, hN⟩ := hw2.2.2 q
      have := sroot_mem_keys hw2.2.1 hN hqK2
      rwa [hsq2] at this
    obtain ⟨hlw, hls, hlk, _⟩ := link_spec hw2 hrootp hrootq heq hspK hsqK
    refine ⟨hlw, ?_, ?_⟩
    · intro x
      rw [hls x, hs2, hs1]
    · intro hpK hqK
      rw [hlk, hkeys2 hpK hqK]

theorem UF.joined_spec {uf : UF α} (hWF : WFuf uf.m) (p q : α) :
    (uf.joined p q).1 = decide (sroot uf.m p = sroot uf.m q) ∧
      WFuf (uf.joined p q).2.m ∧ (∀ x, sroot (uf.joined p q).2.m x = sroot uf.m x) ∧
      (p ∈ keys uf.m → q ∈ keys uf.m → keys (uf.joined p q).2.m = keys uf.m) := by
  unfold UF.joined
  obtain ⟨hr1, hw1, hs1, hk1, hm1⟩ := UF.root_spec hWF p
  obtain ⟨hr2, hw2, hs2, hk2, hm2⟩ := UF.root_spec hw1 q
  simp only []
  rw [hr1, hr2, hs1 q]
  refine ⟨rfl, hw2, ?_, ?_⟩
  · intro x
    rw [hs2, hs1]
  · intro hpK hqK
    rw [hk2, hk1]
    rw [if_pos (mhas_iff.2 hpK), if_pos (by
      rw [mhas_iff, hk1, if_pos (mhas_iff.2 hpK)]
      exact hqK)]

theorem contains_iff_gen {v : List α} {y : α} : v.contains y = true ↔ y ∈ v :=
  List.elem_iff

theorem list_toFinset_map (l : List α) (f : α → α) :
    (l.map f).toFinset = l.toFinset.image f := by
  ext y
  rw [List.mem_toFinset, Finset.mem_image, List.mem_map]
  constructor
  · rintro ⟨x, hx, rfl⟩
    exact ⟨x, List.mem_toFinset.2 hx, rfl⟩
  · rintro ⟨x, hx, rfl⟩
    exact ⟨x, List.mem_toFinset.1 hx, rfl⟩

theorem rootsNbr_fold_spec (σ : α → α) :
    ∀ (ks : List α) (s0 : List α) (u : UF α), WFuf u.m →
      (∀ x, sroot u.m x = σ x) → (∀ k ∈ ks, k ∈ keys u.m) → s0.Nodup →
      (ks.foldl UF.rootsNbrStep (s0, u)).1.Nodup ∧
        (∀ x, x ∈ (ks.foldl UF.rootsNbrStep (s0, u)).1 ↔ x ∈ s0 ∨ x ∈ ks.map σ) ∧
        WFuf (ks.foldl UF.rootsNbrStep (s0, u)).2.m ∧
        keys (ks.foldl UF.rootsNbrStep (s0, u)).2.m = keys u.m := by
  intro ks
  induction ks with
  | nil =>
      intro s0 u hWF hσ hks hnd
      refine ⟨hnd, fun x => ?_, hWF, rfl⟩
      simp
  | cons k t ih =>
      intro s0 u hWF hσ hks hnd
      rw [List.foldl_cons]
      have hkK : k ∈ keys u.m := hks k (List.mem_cons_self k t)
      obtain ⟨hr1, hw1, hs1, hk1, hm1⟩ := UF.root_spec hWF (parentD u.m k)
      have hσk : (UF.root u (parentD u.m k)).1 = σ k := by
        rw [hr1]
        obtain ⟨N, hN⟩ := hWF.2.2 k
        rw [sroot_parentD hN, hσ k]
      have hpK : parentD u.m k ∈ keys u.m := by
        by_cases hroot : isRoot u.m k
        · rw [hroot]
          exact hkK
        · exact parentD_mem_keys hWF.2.1 hroot
      have hkeys1 : keys (UF.root u (parentD u.m k)).2.m = keys u.m := by
        rw [hk1, if_pos (mhas_iff.2 hpK)]
      have hstep : UF.rootsNbrStep (s0, u) k =
          ((if s0.contains (σ k) then s0 else s0 ++ [σ k]),
            (UF.root u (parentD u.m k)).2) := by
        unfold UF.rootsNbrStep
        simp only []
        have hσk2 : (u.root ((mfind u.m k).getD k)).1 = σ k := hσk
        rw [hσk2]
        rfl
      rw [hstep]
      have hnd1 : (if s0.contains (σ k) then s0 else s0 ++ [σ k]).Nodup := by
        by_cases hcx : s0.contains (σ k) = true
        · rw [if_pos hcx]
          exact hnd
        · rw [if_neg hcx]
          rw [List.nodup_append]
          refine ⟨hnd, List.nodup_singleton _, ?_⟩
          intro a ha ha2
          rw [List.mem_singleton] at ha2
          subst ha2
          exact hcx (contains_iff_gen.2 ha)
      obtain ⟨ha, hb, hc2, he⟩ :=
        ih (if s0.contains (σ k) then s0 else s0 ++ [σ k])
          (UF.root u (parentD u.m k)).2 hw1
          (fun x => by rw [hs1, hσ])
          (fun k2 hk2 => by
            rw [hkeys1]
            exact hks k2 (List.mem_cons_of_mem _ hk2))
          hnd1
      refine ⟨ha, ?_, hc2, by rw [he, hkeys1]⟩
      intro x
      rw [hb x, List.map_cons, List.mem_cons]
      by_cases hcx : s0.contains (σ k) = true
      · rw [if_pos hcx]
        constructor
        · rintro (h1 | h1)
          · exact Or.inl h1
          · exact Or.inr (Or.inr h1)
        · rintro (h1 | h1 | h1)
          · exact Or.inl h1
          · rw [h1]
            exact Or.inl (contains_iff_gen.1 hcx)
          · exact Or.inr h1
      · rw [if_neg hcx]
        constructor
        · rintro (h1 | h1)
          · rw [List.mem_append] at h1
            rcases h1 with h2 | h2
            · exact Or.inl h2
            · rw [List.mem_singleton] at h2
              exact Or.inr (Or.inl h2)
          · exact Or.inr (Or.inr h1)
        · rintro (h1 | h1 | h1)
          · exact Or.inl (List.mem_append_left _ h1)
          · exact Or.inl (List.mem_append_right _ (List.mem_singleton.2 h1))
          · exact Or.inr h1

theorem UF.componentCount_spec {uf : UF α} (hWF : WFuf uf.m) :
    uf.componentCount = ((keys uf.m).map (sroot uf.m)).toFinset.card ∧
      WFuf uf.rootsNbr.2.m := by
  unfold UF.componentCount UF.rootsNbr
  simp only []
  obtain ⟨ha, hb, hc, _⟩ :=
    rootsNbr_fold_spec (sroot uf.m) (uf.m.map (fun e => e.1)) [] uf hWF
      (fun x => rfl) (fun k hk => by unfold keys; exact hk) List.nodup_nil
  refine ⟨?_, hc⟩
  have hfs : ((uf.m.map (fun e => e.1)).foldl UF.rootsNbrStep
      (([] : List α), uf)).1.toFinset = ((keys uf.m).map (sroot uf.m)).toFinset := by
    ext x
    rw [List.mem_toFinset, List.mem_toFinset, hb x]
    constructor
    · rintro (h1 | h1)
      · exact absurd h1 (List.not_mem_nil x)
      · exact h1
    · exact fun h1 => Or.inr h1
  rw [← hfs]
  exact (List.toFinset_card_of_nodup ha).symm

/-- The component count after a `join` of two registered nodes: unchanged
when they already shared a root, exactly one less otherwise. -/
theorem UF.join_count {uf : UF α} (hWF : WFuf uf.m) {a b : α}
    (ha : a ∈ keys uf.m) (hb : b ∈ keys uf.m) :
    (sroot uf.m a = sroot uf.m b →
      (uf.join a b).componentCount = uf.componentCount) ∧
      (¬ sroot uf.m a = sroot uf.m b →
        (uf.join a b).componentCount + 1 = uf.componentCount) := by
  obtain ⟨hjw, hjs, hjk⟩ := UF.join_spec hWF a b
  have hkeysJ : keys (uf.join a b).m = keys uf.m := hjk ha hb
  have hc1 := (UF.componentCount_spec hWF).1
  have hc2 := (UF.componentCount_spec hjw).1
  rw [hc1, hc2, hkeysJ]
  constructor
  · intro heq
    have hcong : (keys uf.m).map (sroot (uf.join a b).m) =
        (keys uf.m).map (sroot uf.m) := by
      apply List.map_congr_left
      intro x _
      rw [hjs x]
      by_cases hx : sroot uf.m x = sroot uf.m a
      · rw [if_pos hx, hx, heq]
      · rw [if_neg hx]
    rw [hcong]
  · intro hne
    have hmapJ : (keys uf.m).map (sroot (uf.join a b).m) =
        ((keys uf.m).map (sroot uf.m)).map
          (fun r => if r = sroot uf.m a then sroot uf.m b else r) := by
      rw [List.map_map]
      apply List.map_congr_left
      intro x _
      simp only [Function.comp_apply]
      rw [hjs x]
    rw [hmapJ, list_toFinset_map]
    have hσa : sroot uf.m a ∈ ((keys uf.m).map (sroot uf.m)).toFinset :=
      List.mem_toFinset.2 (List.mem_map.2 ⟨a, ha, rfl⟩)
    have hσb : sroot uf.m b ∈ ((keys uf.m).map (sroot uf.m)).toFinset :=
      List.mem_toFinset.2 (List.mem_map.2 ⟨b, hb, rfl⟩)
    have himg : ((keys uf.m).map (sroot uf.m)).toFinset.image
        (fun r => if r = sroot uf.m a then sroot uf.m b else r) =
        Insert.insert (sroot uf.m b)
          (((keys uf.m).map (sroot uf.m)).toFinset.erase (sroot uf.m a)) := by
      ext y
      rw [Finset.mem_image, Finset.mem_insert, Finset.mem_erase]
      constructor
      · rintro ⟨x, hx, hxy⟩
        by_cases hxa : x = sroot uf.m a
        · rw [if_pos hxa] at hxy
          exact Or.inl hxy.symm
        · rw [if_neg hxa] at hxy
          subst hxy
          by_cases hxb : x = sroot uf.m b
          · exact Or.inl hxb
          · exact Or.inr ⟨hxa, hx⟩
      · rintro (h1 | ⟨h1, h2⟩)
        · refine ⟨sroot uf.m b, hσb, ?_⟩
          rw [if_neg (fun hc => hne hc.symm), h1]
        · refine ⟨y, h2, ?_⟩
          rw [if_neg h1]
    rw [himg]
    have hbmem : sroot uf.m b ∈
        ((keys uf.m).map (sroot uf.m)).toFinset.erase (sroot uf.m a) :=
      Finset.mem_erase.2 ⟨fun hc => hne hc.symm, hσb⟩
    rw [Finset.insert_eq_self.2 hbmem,
      Finset.card_erase_of_mem hσa]
    have hpos : 0 < ((keys uf.m).map (sroot uf.m)).toFinset.card :=
      Finset.card_pos.2 ⟨_, hσa⟩
    omega

/-- States of the union-find produced by the operations of the program. -/
inductive UFReach : UF α → Prop
  | empty : UFReach ⟨[]⟩
  | root (uf : UF α) (p : α) : UFReach uf → UFReach (uf.root p).2
  | join (uf : UF α) (p q : α) : UFReach uf → UFReach (uf.join p q)
  | joined (uf : UF α) (p q : α) : UFReach uf → UFReach (uf.joined p q).2
  | rootsNbr (uf : UF α) : UFReach uf → UFReach uf.rootsNbr.2

theorem WFuf_empty : WFuf ([] : List (α × α)) := by
  refine ⟨List.nodup_nil, ?_, ?_⟩
  · intro e he
    exact absurd he (List.not_mem_nil e)
  · intro p
    refine ⟨0, ?_⟩
    unfold distLe
    exact isRoot_of_not_mem (by
      unfold keys
      simp)

theorem UFReach_WF {uf : UF α} (h : UFReach uf) : WFuf uf.m := by
  induction h with
  | empty => exact WFuf_empty
  | root uf0 p _ ih => exact (UF.root_spec ih p).2.1
  | join uf0 p q _ ih => exact (UF.join_spec ih p q).1
  | joined uf0 p q _ ih => exact (UF.joined_spec ih p q).2.1
  | rootsNbr uf0 _ ih => exact (UF.componentCount_spec ih).2

end UFtheory

/-! ### Claim theorems (with their supporting witnesses/counterexamples) -/

/-- C1: the claim states that all three generators always open exactly
`rows*cols - 1` walls forming a spanning tree.  The recursive backtracker
never marks its start cell visited, so a run can walk back into the start
cell and open a cycle edge: on the 2×2 grid with the random choices below it
opens 4 walls, not `2*2 - 1 = 3`.  This theorem evaluates the code at that
failing input. -/
theorem claim_C1 :
    (createRandomMazeRec (initMaze 2 2) [0, 0, 0, 1, 0, 0]).isOk = true ∧
      openDoorCount ((createRandomMazeRec (initMaze 2 2) [0, 0, 0, 1, 0, 0]).get) = 4 ∧
      decide (openDoorCount ((createRandomMazeRec (initMaze 2 2) [0, 0, 0, 1, 0, 0]).get) =
        2 * 2 - 1) = false := by
  decide

/-- C3: the claim states that the backtracker marks its uniformly random
start cell visited before the main loop.  In the source the visited set
starts empty and the start cell is never added on entry: in the concrete
2×2 run below the start cell is `(0,0)`, the visited set before the loop is
empty, and after three iterations the start cell shows up in the current
cell's list of UNvisited neighbors. -/
theorem claim_C3 :
    (recInitSt (initMaze 2 2) [0, 0, 0, 1, 0, 0]).cell = (0, 0) ∧
      (recInitSt (initMaze 2 2) [0, 0, 0, 1, 0, 0]).v = [] ∧
      (0, 0) ∈ recUnvisited 2 2 (recSteps 2 2 3 (recInitSt (initMaze 2 2) [0, 0, 0, 1, 0, 0])) := by
  decide

/-- C4: the claim states that `solve` raises the PathNotFound error exactly
when backtracking exhausts the path with `current != end`.  In the source
the emptiness test happens BEFORE the `pop`, so the throw is dead code: on
an unreachable target the loop pops the path to empty, sets
`current = path[-1] = undefined` and crashes dereferencing `undefined`
(modelled as `errUndefined`); `errPathNotFound` is never produced on any
input. -/
theorem claim_C4 :
    solve (initMaze 1 2) (0, 0) (0, 1) [] = SolveRes.errUndefined ∧
      ∀ (m : Maze) (s e : Cell) (rng : List Nat),
        decide (solve m s e rng = SolveRes.errPathNotFound) = false := by
  constructor
  · decide
  · intro m s e rng
    rw [decide_eq_false_iff_not]
    unfold solve
    apply solveRun_not_pnf
    intro h
    exact absurd h (List.cons_ne_nil _ _)

/-- C2: for cells of the grid with `end` reachable from `start` through open
doors, `solve(start, end)` returns a path whose first element is `start` and
last is `end`, in which every consecutive pair is joined by an open door
(`canVisit` edge) and no cell repeats; and `solve(c, c)` returns `[c]` for
every cell. -/
theorem claim_C2 (m : Maze) (s e c : Cell) (rng rng2 : List Nat)
    (hs : s ∈ cellSeq m.rows m.cols) (hreach : ReachOpen m s e) :
    (∃ p, solve m s e rng = SolveRes.ok p ∧ p.head? = some s ∧ p.getLast? = some e ∧
        List.Chain' (fun a b => b ∈ canVisit m a) p ∧ p.Nodup) ∧
      solve m c c rng2 = SolveRes.ok [c] := by
  refine ⟨solve_reach_ok rng hs hreach, ?_⟩
  unfold solve
  have hf : solveFuel m.rows m.cols = 2 * m.rows * m.cols + 1 + 1 := rfl
  rw [hf]
  exact solveRun_one_step_done (solveStep_done rfl)

theorem claim_C2_witness :
    (∃ p, solve (initMaze 1 1) (0, 0) (0, 0) [] = SolveRes.ok p ∧
        p.head? = some (0, 0) ∧ p.getLast? = some (0, 0) ∧
        List.Chain' (fun a b => b ∈ canVisit (initMaze 1 1) a) p ∧ p.Nodup) ∧
      solve (initMaze 1 1) (0, 0) (0, 0) [] = SolveRes.ok [(0, 0)] :=
  claim_C2 (initMaze 1 1) (0, 0) (0, 0) (0, 0) [] [] (by decide) (ReachOpen.refl (0, 0))

/-- C7: generation and solving always terminate within an explicit fuel
bound computed from the number of cells and walls: no execution of the
recursive backtracker, Prim or Kruskal runs out of fuel, and the solver
finishes normally whenever the target is reachable through open doors
(which the spanning-tree invariant guarantees for every pair of cells). -/
theorem claim_C7 (m : Maze) (rng rng2 : List Nat) (s e : Cell)
    (hr : 1 ≤ m.rows) (hc : 1 ≤ m.cols)
    (hs : s ∈ cellSeq m.rows m.cols) (hreach : ReachOpen m s e) :
    (createRandomMazeRec m rng).isFuelOut = false ∧
      (createRandomMazePrim m rng).isFuelOut = false ∧
      (createRandomMazeKruskal m rng).isFuelOut = false ∧
      ∃ p, solve m s e rng2 = SolveRes.ok p := by
  refine ⟨?_, ?_, ?_, ?_⟩
  · unfold createRandomMazeRec
    rw [RunRes.isFuelOut_map]
    apply recRun_no_fuelOut
    · exact ⟨List.nodup_nil, fun x hx => absurd hx (List.not_mem_nil x)⟩
    · unfold recMeasure recFuel recInitSt
      rw [cellSeq_length]
      simp only [List.length_nil]
      have h2 : 3 * m.rows * m.cols = 3 * (m.rows * m.cols) := by ring
      omega
  · unfold createRandomMazePrim
    rw [RunRes.isFuelOut_map]
    apply primRun_no_fuelOut
    · refine ⟨List.nodup_singleton _, ?_, ?_⟩
      · intro x hx
        simp only [primInitSt, List.mem_singleton] at hx
        subst hx
        exact mem_cellSeq.2 ⟨randBelow_lt hr, randBelow_lt hc⟩
      · intro w hw
        simp only [primInitSt] at hw
        exact doorsOfSnd_endpoints hw
    · unfold primMeasure primFuel primInitSt
      simp only [List.length_singleton, List.length_map]
      have hdle : (doorsOf m.rows m.cols
          ((randBelow rng m.rows).1, (randBelow (randBelow rng m.rows).2 m.cols).1)).length ≤
          (gridRegs m.rows m.cols).length := List.length_filterMap_le _ _
      rw [cellSeq_length]
      have hfac : ((gridRegs m.rows m.cols).length + 1) * (m.rows * m.cols + 1) =
          ((gridRegs m.rows m.cols).length + 1) * (m.rows * m.cols - 1) +
            2 * ((gridRegs m.rows m.cols).length + 1) := by
        have h2 : m.rows * m.cols + 1 = (m.rows * m.cols - 1) + 2 := by
          have := Nat.one_le_iff_ne_zero.1 (Nat.mul_pos hr hc)
          omega
        rw [h2]
        ring
      omega
  · unfold createRandomMazeKruskal
    simp only []
    rw [RunRes.isFuelOut_map]
    apply kruskalRun_no_fuelOut
    omega
  · obtain ⟨p, hp, _⟩ := solve_reach_ok rng2 hs hreach
    exact ⟨p, hp⟩

theorem claim_C7_witness :
    (createRandomMazeRec (initMaze 1 1) []).isFuelOut = false ∧
      (createRandomMazePrim (initMaze 1 1) []).isFuelOut = false ∧
      (createRandomMazeKruskal (initMaze 1 1) []).isFuelOut = false ∧
      ∃ p, solve (initMaze 1 1) (0, 0) (0, 0) [] = SolveRes.ok p :=
  claim_C7 (initMaze 1 1) [] [] (0, 0) (0, 0) (by decide) (by decide) (by decide)
    (ReachOpen.refl (0, 0))

/-- C5: after construction with positive `rows`, `cols` the grid holds
exactly `rows*(cols-1) + cols*(rows-1)` walls; every wall's endpoints are
adjacent cells (differing by 1 in exactly one coordinate); every wall starts
closed; every wall is registered mutually in both endpoint cells' direction
maps, and every direction-map entry points back to a wall of the grid having
that cell as an endpoint. -/
theorem claim_C5 (rows cols : Nat) (hr : 1 ≤ rows) (hc : 1 ≤ cols) :
    (initMaze rows cols).doors.length = rows * (cols - 1) + cols * (rows - 1) ∧
      (∀ d ∈ (initMaze rows cols).doors,
        ((d.c1.1 = d.c2.1 ∧ d.c1.2 + 1 = d.c2.2) ∨
            (d.c1.2 = d.c2.2 ∧ d.c1.1 + 1 = d.c2.1)) ∧
          (initMaze rows cols).closed d = true ∧
          (∃ dir, (dir, d) ∈ doorsOf rows cols d.c1) ∧
          (∃ dir, (dir, d) ∈ doorsOf rows cols d.c2)) ∧
      (∀ (c : Cell) (dir : Dir) (d : DoorId), (dir, d) ∈ doorsOf rows cols c →
        (c = d.c1 ∨ c = d.c2) ∧ d ∈ (initMaze rows cols).doors) := by
  refine ⟨gridDoors_count rows cols hr hc, ?_, ?_⟩
  · intro d hd
    have hd' : d ∈ gridDoors rows cols := hd
    refine ⟨?_, rfl, gridDoors_mutual hd'⟩
    rcases mem_gridDoors.1 hd' with ⟨x, y, h1, h2, rfl⟩ | ⟨x, y, h1, h2, rfl⟩
    · right
      exact ⟨rfl, rfl⟩
    · left
      exact ⟨rfl, rfl⟩
  · intro c dir d hd
    have hs := gridRegs_sound (mem_doorsOf.1 hd)
    exact ⟨hs.2.2.2.1, hs.2.2.2.2⟩

/-- C6 counterexample: the claim asserts for ALL nodes and all prior
operation sequences that `componentCount` decreases by exactly 1 when the
joined nodes were in distinct components.  With lazy registration this
fails for nodes never seen before: on the empty structure, `joined(0,1)` is
false (distinct components), yet the count goes from 0 UP to 1 after
`join(0,1)`, because the count only ranges over registered nodes. -/
theorem claim_C6_counterexample :
    ((⟨[]⟩ : UF Nat).joined 0 1).1 = false ∧
      UF.componentCount (⟨[]⟩ : UF Nat) = 0 ∧
      UF.componentCount ((⟨[]⟩ : UF Nat).join 0 1) = 1 ∧
      decide (UF.componentCount ((⟨[]⟩ : UF Nat).join 0 1) + 1 =
        UF.componentCount (⟨[]⟩ : UF Nat)) = false := by
  decide

/-- C6 (amended): on every union-find state the program can build, after
`join(a, b)` the query `joined(a, b)` returns true; and provided `a` and `b`
were already REGISTERED before the join, `componentCount` is unchanged when
they already shared a component and drops by exactly 1 when they did not
(for unregistered nodes the join first registers them, which can increase
the count). -/
theorem claim_C6 {α : Type} [DecidableEq α] (uf : UF α) (a b : α) (hreach : UFReach uf) :
    ((uf.join a b).joined a b).1 = true ∧
      (a ∈ keys uf.m → b ∈ keys uf.m →
        ((uf.joined a b).1 = true →
            (uf.join a b).componentCount = uf.componentCount) ∧
          ((uf.joined a b).1 = false →
            (uf.join a b).componentCount + 1 = uf.componentCount)) := by
  have hWF := UFReach_WF hreach
  obtain ⟨hjw, hjs, hjk⟩ := UF.join_spec hWF a b
  constructor
  · obtain ⟨h1, _, _, _⟩ := UF.joined_spec hjw a b
    rw [h1, decide_eq_true_eq, hjs a, hjs b, if_pos rfl]
    by_cases hba : sroot uf.m b = sroot uf.m a
    · rw [if_pos hba]
    · rw [if_neg hba]
  · intro ha hb
    have hjoined := (UF.joined_spec hWF a b).1
    obtain ⟨hcEq, hcNe⟩ := UF.join_count hWF ha hb
    constructor
    · intro htrue
      rw [hjoined, decide_eq_true_eq] at htrue
      exact hcEq htrue
    · intro hfalse
      rw [hjoined, decide_eq_false_iff_not] at hfalse
      exact hcNe hfalse

theorem claim_C6_witness :
    (((((⟨[]⟩ : UF Nat).join 0 0).join 1 1).join 0 1).joined 0 1).1 = true ∧
      ((((⟨[]⟩ : UF Nat).join 0 0).join 1 1).join 0 1).componentCount + 1 =
        (((⟨[]⟩ : UF Nat).join 0 0).join 1 1).componentCount := by
  have h := claim_C6 (((⟨[]⟩ : UF Nat).join 0 0).join 1 1) 0 1
    (UFReach.join _ 1 1 (UFReach.join _ 0 0 UFReach.empty))
  refine ⟨h.1, ?_⟩
  exact (h.2 (by decide) (by decide)).2 (by decide)

theorem claim_C5_witness :
    (initMaze 2 2).doors.length = 2 * (2 - 1) + 2 * (2 - 1) :=
  (claim_C5 2 2 (by decide) (by decide)).1

/-- C8 counterexample: the claim states that within each orientation group
the walls keep their relative order from the construction sequence, for
every constructed grid.  Construction includes generation, and Kruskal
generation shuffles the door array in place: on the 1×3 grid with the
random choices below, the `|` group comes out as the same two walls in the
OPPOSITE of construction order. -/
theorem claim_C8_counterexample :
    decide ((groupDoors ((createRandomMazeKruskal (initMaze 1 3) [0]).get).doors).1 =
        (gridDoors 1 3).filter (fun d => decide (doorDir d = '|'))) = false ∧
      List.Perm (groupDoors ((createRandomMazeKruskal (initMaze 1 3) [0]).get).doors).1
        ((gridDoors 1 3).filter (fun d => decide (doorDir d = '|'))) := by
  constructor
  · decide
  · decide

/-- C8 (amended): `groupDoors` returns the stable partition, by orientation,
of the maze's CURRENT door array: every wall lands in exactly one of the two
groups (its direction is either `|` or `-`) in array order, and the
operation mutates nothing.  The door array still holds the construction
sequence after recursive-backtracker or Prim generation, while Kruskal
generation permutes it (so only the multiset, not the construction order,
is preserved there). -/
theorem claim_C8 (m : Maze) (rng : List Nat) :
    (∀ l : List DoorId,
        groupDoors l =
          (l.filter (fun d => decide (doorDir d = '|')),
            l.filter (fun d => decide (doorDir d = '-')))) ∧
      (∀ d : DoorId, doorDir d = '|' ∨ doorDir d = '-') ∧
      ((createRandomMazeRec m rng).get).doors = m.doors ∧
      ((createRandomMazePrim m rng).get).doors = m.doors ∧
      List.Perm ((createRandomMazeKruskal m rng).get).doors m.doors := by
  refine ⟨groupDoors_eq, ?_, ?_, ?_, ?_⟩
  · intro d
    unfold doorDir
    split
    · left
      rfl
    · right
      rfl
  · unfold createRandomMazeRec
    rw [RunRes.get_map]
  · unfold createRandomMazePrim
    rw [RunRes.get_map]
  · unfold createRandomMazeKruskal
    simp only []
    rw [RunRes.get_map]
    exact random_shuffle_perm m.doors rng

theorem ClosedLe.le {g f : DoorId → Bool} (h : ClosedLe g f) (d : DoorId) : g d ≤ f d := by
  cases hg : g d with
  | false => exact Bool.false_le _
  | true =>
      rw [h d hg]

/-- C9: the solver mutates nothing.  `solveRunS` threads the whole maze
state (closed flags, door array, grid shape; the per-cell direction maps
are pure functions of the grid shape) through every loop iteration, and a
full `solve` call returns the maze exactly as it was passed in, alongside
the same result the plain solver computes. -/
theorem claim_C9 (m : Maze) (s e : Cell) (rng : List Nat) :
    solveRunS e (solveFuel m.rows m.cols) (m, solveInitSt s rng) = (solve m s e rng, m) := by
  have h := solveRunS_frame e (solveFuel m.rows m.cols) (m, solveInitSt s rng)
  exact Prod.ext h.2 h.1

/-- C10: wall opening is monotone.  Every write a generator performs on a
`closed` flag writes `false` (`closed-after ≤ closed-before` on `Bool`,
i.e. a door closed after generation was already closed before, so `false`
never flips back to `true`), and the solver does not write closed flags at
all. -/
theorem claim_C10 (m : Maze) (rng : List Nat) (d : DoorId) (endC : Cell) (fuel : Nat)
    (st : SolveSt) :
    ((createRandomMazeRec m rng).get).closed d ≤ m.closed d ∧
      ((createRandomMazePrim m rng).get).closed d ≤ m.closed d ∧
      ((createRandomMazeKruskal m rng).get).closed d ≤ m.closed d ∧
      (solveRunS endC fuel (m, st)).2.closed d = m.closed d := by
  refine ⟨?_, ?_, ?_, ?_⟩
  · unfold createRandomMazeRec
    rw [RunRes.get_map]
    exact ClosedLe.le (recRun_closed_le m.rows m.cols (recFuel m.rows m.cols) (recInitSt m rng)) d
  · unfold createRandomMazePrim
    rw [RunRes.get_map]
    exact ClosedLe.le
      (primRun_closed_le m.rows m.cols (primFuel m.rows m.cols) (primInitSt m rng)) d
  · unfold createRandomMazeKruskal
    simp only []
    rw [RunRes.get_map]
    exact ClosedLe.le (kruskalRun_closed_le _ _ ⟨m.closed, ⟨[]⟩⟩) d
  · rw [(solveRunS_frame endC fuel (m, st)).1]

end MazeV
